import Mathlib

/-!
Verification of the GoLite storage engine (sukryu/golite).

Shallow embedding of the two storage backends:
  - the LSM backend (pkg/adapters/lsmtree: memtable.go, compaction.go,
    recovery.go, the SSTable code, the WAL and the LRU block cache), and
  - the paged B-tree backend (pkg/adapters/btree).

Go strings are byte strings; we model them as lists of naturals (each < 256
in well-formed data).  Go maps are modelled as association lists with
store-replaces semantics.  File contents are lists of bytes.  Stateful Go
code becomes explicit state passing; fallible code returns Option or an
explicit result type.  Machine arithmetic that matters (uint16/uint32
truncation in binary.Write) is modelled with explicit mod 2^16 / 2^32.
-/

set_option maxHeartbeats 1000000
set_option maxRecDepth 16000

deriving instance DecidableEq for Except

namespace GoLite

/-- Byte strings: the model of a Go string (a sequence of bytes). -/
abbrev Str := List Nat

/-- Go byte-wise lexicographic string comparison, s < t. -/
def ltStr : Str → Str → Bool
  | [], [] => false
  | [], _ :: _ => true
  | _ :: _, [] => false
  | a :: as, b :: bs => if a < b then true else if b < a then false else ltStr as bs

/-- Go string comparison s ≤ t, i.e. not (t < s). -/
def leStr (s t : Str) : Bool := !(ltStr t s)

/-- Big-endian encoding of a Go uint16 value, as written by
binary.Write(buf, binary.BigEndian, uint16(n)): the conversion uint16(n)
truncates to n mod 2^16, whose two big-endian bytes are below. -/
def be16 (n : Nat) : List Nat := [n / 256 % 256, n % 256]

/-- Big-endian encoding of a Go uint32 value (binary.Write of uint32). -/
def be32 (n : Nat) : List Nat :=
  [n / 16777216 % 256, n / 65536 % 256, n / 256 % 256, n % 256]

/-- Decode two big-endian bytes into the uint16 they represent. -/
def deBE16 (hi lo : Nat) : Nat := hi * 256 + lo

/-- Decode four big-endian bytes into the uint32 they represent. -/
def deBE32 (b0 b1 b2 b3 : Nat) : Nat :=
  b0 * 16777216 + b1 * 65536 + b2 * 256 + b3

/-- Read n bytes of a file at position pos.  Returns none when fewer than n
bytes remain, matching io.ReadFull / binary.Read failing with
(Unexpected)EOF on a short read. -/
def readBytes (file : List Nat) (pos n : Nat) : Option (List Nat) :=
  if pos + n ≤ file.length then some ((file.drop pos).take n) else none

/-- Read a big-endian uint16 at pos (binary.Read of a uint16). -/
def readU16 (file : List Nat) (pos : Nat) : Option Nat :=
  match readBytes file pos 2 with
  | some (hi :: lo :: _) => some (deBE16 hi lo)
  | _ => none

/-- Read a big-endian uint32 at pos (binary.Read of a uint32). -/
def readU32 (file : List Nat) (pos : Nat) : Option Nat :=
  match readBytes file pos 4 with
  | some (b0 :: b1 :: b2 :: b3 :: _) => some (deBE32 b0 b1 b2 b3)
  | _ => none

/-- The reflected CRC-32 (IEEE) polynomial used by Go's hash/crc32
ChecksumIEEE. -/
def crc32Poly : Nat := 0xEDB88320

/-- One bit step of the reflected CRC-32 computation. -/
def crc32Step (c : Nat) : Nat := if c % 2 = 1 then (c / 2) ^^^ crc32Poly else c / 2

/-- Fold one byte into the CRC state (eight bit steps). -/
def crc32Byte (c b : Nat) : Nat := crc32Step^[8] (c ^^^ b % 256)

/-- CRC-32 (IEEE, reflected) of a byte sequence, as computed by Go's
crc32.ChecksumIEEE / crc32.NewIEEE hasher. -/
def crc32 (bs : List Nat) : Nat := (bs.foldl crc32Byte 0xFFFFFFFF) ^^^ 0xFFFFFFFF

/-- Association-list lookup, modelling a Go map read m[k]. -/
def alookup (k : Str) : List (Str × α) → Option α
  | [] => none
  | (k2, v) :: rest => if k2 = k then some v else alookup k rest

/-- Association-list store, modelling a Go map write m[k] = v: replaces the
binding in place when present, otherwise appends it. -/
def astore (k : Str) (v : α) : List (Str × α) → List (Str × α)
  | [] => [(k, v)]
  | (k2, v2) :: rest => if k2 = k then (k, v) :: rest else (k2, v2) :: astore k v rest

/-- Keys of an association list. -/
def keysOf (l : List (Str × α)) : List Str := l.map Prod.fst

/-- Insert a key into a ≤-sorted list of keys (one step of the ascending
sort that models sort.Strings in CreateSSTable). -/
def insertSortedKey (k : Str) : List Str → List Str
  | [] => [k]
  | x :: xs => if ltStr k x then k :: x :: xs else x :: insertSortedKey k xs

/-- Ascending lexicographic sort of a list of keys (sort.Strings). -/
def sortStrs (l : List Str) : List Str := l.foldr insertSortedKey []

/-! ### Write-ahead log (part_003: wal.go, and recovery.go)

A WalEntry is the in-memory form of one WAL record: op 0x00 is insert,
op 0x01 is delete. -/

structure WalEntry where
  op : Nat
  key : Str
  value : Str
  deriving DecidableEq, Repr

/-- Serialization of one WAL record as performed by WAL.worker: the op
byte, the big-endian uint16 key length and the key bytes, then — for every
record, deletes included — the big-endian uint16 value length and the value
bytes.  (LSMTree.Delete enqueues the entry with an empty value.) -/
def encodeWalEntry (e : WalEntry) : List Nat :=
  [e.op] ++ be16 e.key.length ++ e.key ++ be16 e.value.length ++ e.value

/-- Byte stream produced by the WAL worker for a sequence of appends. -/
def encodeWal (es : List WalEntry) : List Nat := (es.map encodeWalEntry).flatten

/-! ### Memtable (memtable.go, first file)

The memtable is a Go map guarded by a mutex with an atomic byte counter;
we model it as an association list plus the two counters. -/

/-- The tombstone sentinel string "<TOMBSTONE>" (memtable.go). -/
def tombstone : Str := [60, 84, 79, 77, 66, 83, 84, 79, 78, 69, 62]

structure MemTable where
  entries : List (Str × Str)
  size : Nat
  maxSize : Nat
  deriving DecidableEq, Repr

/-- NewMemTable with the given byte cap. -/
def MemTable.new (maxSize : Nat) : MemTable := ⟨[], 0, maxSize⟩

/-- MemTable.Insert: rejects with ErrMemTableFull when the projected size
exceeds the cap, otherwise stores the pair and adds len(key)+len(value)
to the byte counter.  none models the ErrMemTableFull return. -/
def MemTable.insert (m : MemTable) (k v : Str) : Option MemTable :=
  let addSize := k.length + v.length
  if m.size + addSize > m.maxSize then none
  else some { m with entries := astore k v m.entries, size := m.size + addSize }

/-- MemTable.Get: a missing key and a tombstone both report not-found. -/
def MemTable.get (m : MemTable) (k : Str) : Option Str :=
  match alookup k m.entries with
  | none => none
  | some v => if v = tombstone then none else some v

/-- MemTable.Delete: stores the tombstone (never fails, never touches the
size counter). -/
def MemTable.delete (m : MemTable) (k : Str) : MemTable :=
  { m with entries := astore k tombstone m.entries }

/-- MemTable.Dump: all pairs whose value is not the tombstone. -/
def MemTable.dump (m : MemTable) : List (Str × Str) :=
  m.entries.filter (fun kv => kv.2 ≠ tombstone)

/-- MemTable.Swap: returns the snapshot (tombstones filtered out) and the
emptied table. -/
def MemTable.swap (m : MemTable) : List (Str × Str) × MemTable :=
  (m.entries.filter (fun kv => kv.2 ≠ tombstone), { m with entries := [], size := 0 })

/-- One replayed WAL record applied to the memtable: op 0x00 is
MemTable.Insert with its error ignored (RecoverFromWAL discards it), op
0x01 is MemTable.Delete, any other op byte is skipped. -/
def applyWalEntry (m : MemTable) (e : WalEntry) : MemTable :=
  if e.op = 0 then
    match m.insert e.key e.value with
    | some m2 => m2
    | none => m
  else if e.op = 1 then m.delete e.key
  else m

/-- RecoverFromWAL's read loop over the file bytes: reads the op byte, the
key length and key, the value length and value — for every record — and
applies the record; any short read ends replay successfully (EOF and
ErrUnexpectedEOF both break the loop). -/
def recoverLoop (file : List Nat) : Nat → Nat → MemTable → MemTable
  | 0, _, m => m
  | fuel + 1, pos, m =>
    if pos < file.length then
      let op := (file.drop pos).headD 0
      match readU16 file (pos + 1) with
      | none => m
      | some keyLen =>
        match readBytes file (pos + 3) keyLen with
        | none => m
        | some key =>
          match readU16 file (pos + 3 + keyLen) with
          | none => m
          | some valLen =>
            match readBytes file (pos + 5 + keyLen) valLen with
            | none => m
            | some value =>
              recoverLoop file fuel (pos + 5 + keyLen + valLen)
                (applyWalEntry m ⟨op, key, value⟩)
    else m

/-- RecoverFromWAL: replay the WAL bytes onto the memtable (an empty file
recovers immediately).  Every loop iteration advances the position by at
least 5, so file.length + 1 iterations always suffice. -/
def recoverFromWAL (file : List Nat) (m : MemTable) : MemTable :=
  recoverLoop file (file.length + 1) 0 m

/-! ### SSTable (second file of errors.go)

An SSTable file is the concatenation of records
[keyLen:u16be][key][valLen:u16be][val] followed by a 4-byte big-endian
CRC32 over the records.  The in-memory SSTable carries the min key, the
max key, the byte size of the record area, and the key-to-offset index.
The file path of the Go struct is identified with the file's contents,
which we carry inline (fileBytes). -/

structure SSTable where
  minKey : Str
  maxKey : Str
  size : Nat
  index : List (Str × Nat)
  fileBytes : List Nat
  deriving DecidableEq, Repr

/-- Serialization of one SSTable record, as in CreateSSTable's write loop. -/
def encRecord (k v : Str) : List Nat := be16 k.length ++ k ++ be16 v.length ++ v

/-- Serialization of a list of records. -/
def encRecords (rs : List (Str × Str)) : List Nat :=
  (rs.map (fun kv => encRecord kv.1 kv.2)).flatten

/-- CreateSSTable's main loop: walk the sorted keys, writing each record,
tracking min/max key, the index and the running offset. -/
def createLoop (data : List (Str × Str)) :
    List Str → Nat → List (Str × Nat) → Str → Str → List Nat →
    (List (Str × Nat) × Str × Str × Nat × List Nat)
  | [], offset, index, mn, mx, body => (index, mn, mx, offset, body)
  | k :: rest, offset, index, mn, _mx, body =>
    let v := (alookup k data).getD []
    let entry := encRecord k v
    let mn2 := if offset = 0 then k else mn
    createLoop data rest (offset + entry.length) (astore k offset index) mn2 k
      (body ++ entry)

/-- CreateSSTable: sort the map's keys ascending, write the records, then
append the CRC32 trailer.  (The create path cannot fail in the model: file
creation and writes are total here.)  The minKey update in the source is
guarded by i == 0, the first iteration; in the loop above the guard
offset = 0 is equivalent because offset starts at 0 and grows by at least
4 per record. -/
def createSSTable (data : List (Str × Str)) : SSTable :=
  match createLoop data (sortStrs (keysOf data)) 0 [] [] [] [] with
  | (index, mn, mx, offset, body) =>
    { minKey := mn, maxKey := mx, size := offset, index := index,
      fileBytes := body ++ be32 (crc32 body) }

/-- OpenSSTable's scan loop.  pos is the file cursor (the Go code reads
the current offset back with file.Seek), offset is the record offset
counter; they advance together.  Reads past the end of the file fail the
open (none); reaching dataEnd ends the scan. -/
def openLoop (file : List Nat) (dataEnd : Nat) :
    Nat → Nat → Nat → List (Str × Nat) → Str → Str → List Nat →
    Option (List (Str × Nat) × Str × Str × Nat × Nat × List Nat)
  | 0, _, _, _, _, _, _ => none
  | fuel + 1, pos, offset, index, mn, mx, hashed =>
    if pos ≥ dataEnd then some (index, mn, mx, offset, pos, hashed)
    else
      match readU16 file pos with
      | none => none
      | some keyLen =>
        match readBytes file (pos + 2) keyLen with
        | none => none
        | some key =>
          match readU16 file (pos + 2 + keyLen) with
          | none => none
          | some valLen =>
            match readBytes file (pos + 4 + keyLen) valLen with
            | none => none
            | some val =>
              let entry := be16 keyLen ++ key ++ be16 valLen ++ val
              let mn2 := if offset = 0 then key else mn
              openLoop file dataEnd fuel (pos + 4 + keyLen + valLen)
                (offset + entry.length) (astore key offset index) mn2 key
                (hashed ++ entry)

/-- OpenSSTable: scan the records, rebuilding index, min/max key and the
running CRC, then compare against the stored trailer; a mismatch is
ErrSSTableCorrupted (none), as is any truncated read.  The loop advances
the position by at least 4 every iteration, so file.length + 1 iterations
always reach dataEnd; the fuel is never the cause of a none result. -/
def openSSTable (file : List Nat) : Option SSTable :=
  match openLoop file (file.length - 4) (file.length + 1) 0 0 [] [] [] [] with
  | none => none
  | some (index, mn, mx, offset, pos, hashed) =>
    match readU32 file pos with
    | none => none
    | some stored =>
      if crc32 hashed ≠ stored then none
      else some { minKey := mn, maxKey := mx, size := offset, index := index,
                  fileBytes := file }

/-- SSTable.Get: look the key up in the index, seek to its offset and read
one record back; any failure reports not-found (false). -/
def SSTable.get (s : SSTable) (k : Str) : Option Str :=
  match alookup k s.index with
  | none => none
  | some pos =>
    match readU16 s.fileBytes pos with
    | none => none
    | some keyLen =>
      match readBytes s.fileBytes (pos + 2) keyLen with
      | none => none
      | some _keyBytes =>
        match readU16 s.fileBytes (pos + 2 + keyLen) with
        | none => none
        | some valLen =>
          match readBytes s.fileBytes (pos + 4 + keyLen) valLen with
          | none => none
          | some val => some val

/-- mergeSSTables (compaction.go): concatenate each input file minus its
4-byte trailer, append a fresh CRC over the concatenation, and open the
result. -/
def mergeSSTables (ssts : List SSTable) : Option SSTable :=
  let body := (ssts.map (fun s => s.fileBytes.take (s.fileBytes.length - 4))).flatten
  openSSTable (body ++ be32 (crc32 body))

/-! ### LRU block cache (first file of part_005: cache.go)

Entries are kept most-recently-used first; capacity is the byte budget
divided by 64 (NewCache). -/

structure Cache where
  capacity : Nat
  entries : List (Str × Str)
  deriving DecidableEq, Repr

/-- NewCache with a byte budget. -/
def Cache.new (capacityBytes : Nat) : Cache := ⟨capacityBytes / 64, []⟩

/-- Cache.Get: a hit moves the entry to the front of the LRU order. -/
def Cache.get (c : Cache) (k : Str) : Option Str × Cache :=
  match alookup k c.entries with
  | none => (none, c)
  | some v => (some v, { c with entries := (k, v) :: c.entries.filter (fun p => p.1 ≠ k) })

/-- Cache.Put: an existing key is updated and moved to the front; a new
key is pushed to the front, evicting the least recently used entry when
over capacity. -/
def Cache.put (c : Cache) (k v : Str) : Cache :=
  match alookup k c.entries with
  | some _ => { c with entries := (k, v) :: c.entries.filter (fun p => p.1 ≠ k) }
  | none =>
    let es := (k, v) :: c.entries
    { c with entries := if es.length > c.capacity then es.dropLast else es }

/-! ### LSM coordinator (second file of memtable.go)

State: the active memtable, the WAL contents (as the list of appended
entries not yet reset), the block cache, and the level vector (levels[0]
is level 0).  NewLSMTree always creates the levels vector with one level,
so the list is nonempty in every reachable state. -/

structure LSM where
  memTable : MemTable
  wal : List WalEntry
  cache : Cache
  levels : List (List SSTable)
  memTableSize : Nat
  deriving DecidableEq, Repr

/-- Go's sort.Search: binary search for the smallest i in [i, j) with
f i = true (j its initial n), returning n when none satisfies f.  The
interval shrinks every iteration, so fuel j - i + 1 always suffices;
callers pass the interval length + 1. -/
def sortSearch (f : Nat → Bool) : Nat → Nat → Nat → Nat
  | 0, i, _ => i
  | fuel + 1, i, j =>
    if i < j then
      let h := (i + j) / 2
      if f h then sortSearch f fuel i h else sortSearch f fuel (h + 1) j
    else i

/-- Insertion of one SSTable into a minKey-sorted level (one step of the
ascending sort.Slice by minKey run after every level mutation). -/
def insertByMinKey (s : SSTable) : List SSTable → List SSTable
  | [] => [s]
  | x :: xs => if ltStr s.minKey x.minKey then s :: x :: xs else x :: insertByMinKey s xs

/-- Sort a level ascending by minKey (sort.Slice with minKey less-than). -/
def sortByMinKey (l : List SSTable) : List SSTable := l.foldr insertByMinKey []

/-- LSMTree.Get's per-level probe: binary-search the level for the first
SSTable whose maxKey is ≥ the key, check its minKey covers the key, and
probe that SSTable; on a hit the value is also put into the block cache.
Misses fall through to the next level. -/
def levelsGet (cache : Cache) (k : Str) : List (List SSTable) → Option Str × Cache
  | [] => (none, cache)
  | level :: rest =>
    let idx := sortSearch
      (fun i => leStr k (match level.get? i with | some t => t.maxKey | none => []))
      (level.length + 1) 0 level.length
    match level.get? idx with
    | some t =>
      if leStr t.minKey k then
        match t.get k with
        | some v => (some v, cache.put k v)
        | none => levelsGet cache k rest
      else levelsGet cache k rest
    | none => levelsGet cache k rest

/-- LSMTree.Get: consult the memtable (its Get reports not-found both for
an absent key and for a tombstone), then the block cache, then the levels.
The returned state carries the cache mutations (LRU promotion on a cache
hit, insertion on an SSTable hit). -/
def LSM.get (l : LSM) (k : Str) : Option Str × LSM :=
  match l.memTable.get k with
  | some v => (some v, l)
  | none =>
    match l.cache.get k with
    | (some v, c2) => (some v, { l with cache := c2 })
    | (none, _) =>
      match levelsGet l.cache k l.levels with
      | (some v, c2) => (some v, { l with cache := c2 })
      | (none, _) => (none, l)

inductive LsmErr
  | memTableFull
  | compactionFailed
  deriving DecidableEq, Repr

/-- LSMTree.flushMemTable: nothing to do on an empty memtable (the WAL is
left alone in that case); otherwise swap the memtable, build an SSTable
from the snapshot, append it to level 0 re-sorted by minKey, then flush
and reset the WAL. -/
def LSM.flushMemTable (l : LSM) : LSM :=
  if l.memTable.size = 0 then l
  else
    let p := l.memTable.swap
    let sst := createSSTable p.1
    let level0 := sortByMinKey ((l.levels.headD []) ++ [sst])
    { l with memTable := MemTable.new l.memTableSize,
             levels := level0 :: l.levels.tail,
             wal := [] }

/-- LSMTree.Insert: append the WAL entry, try the memtable; when the
memtable reports full, flush it and retry once on the fresh table. -/
def LSM.insert (l : LSM) (k v : Str) : Except LsmErr LSM :=
  let l1 := { l with wal := l.wal ++ [WalEntry.mk 0x00 k v] }
  match l1.memTable.insert k v with
  | some mt2 => .ok { l1 with memTable := mt2 }
  | none =>
    let l2 := l1.flushMemTable
    match l2.memTable.insert k v with
    | some mt2 => .ok { l2 with memTable := mt2 }
    | none => .error .memTableFull

/-- LSMTree.Delete: append the WAL entry (with an empty value) and store a
tombstone in the memtable.  It always succeeds — MemTable.Delete has no
failure path and no not-found report. -/
def LSM.delete (l : LSM) (k : Str) : LSM :=
  { l with wal := l.wal ++ [WalEntry.mk 0x01 k []],
           memTable := l.memTable.delete k }

/-- Compactor.Compact: a no-op below the 4-SSTable level-0 threshold —
including when invoked from ForceCompaction.  At or above it, merge all
level-0 SSTables, drop them, and insert the merged table into level 1
(created if absent), re-sorted by minKey. -/
def LSM.compact (l : LSM) : Except LsmErr LSM :=
  let level0 := l.levels.headD []
  if level0.length < 4 then .ok l
  else
    match mergeSSTables level0 with
    | none => .error .compactionFailed
    | some merged =>
      if l.levels.length < 2 then .ok { l with levels := [[], sortByMinKey [merged]] }
      else .ok { l with levels :=
        [] :: sortByMinKey ((l.levels.get? 1).getD [] ++ [merged]) :: l.levels.drop 2 }

/-- LSMTree.ForceCompaction: flush the memtable when non-empty, then run
the compactor (which itself still requires the 4-SSTable threshold). -/
def LSM.forceCompaction (l : LSM) : Except LsmErr LSM :=
  (if l.memTable.size > 0 then l.flushMemTable else l).compact

/-! ### Paged B-tree backend (second file of part_005: btree.go)

A node holds its items, its child page offsets and its own page offset
(the offset field of the Go Node struct).  The disk is a partial map from
page offsets to nodes together with the header page (root offset and item
count, page 0); a node page's byte size is checked against the page size
on write exactly as writeNodeToDisk does after serializing.

The Go node cache stores pointers: a node mutated in place by the B-tree
code changes the cached node without any cache call.  We model the cache
as an association list (most recently used first) and mirror each in-place
mutation with aliasWrite, which updates the cached copy at the node's
offset, in place, without touching the LRU order. -/

structure BNode where
  items : List (Str × Str)
  children : List Nat
  offset : Nat
  deriving DecidableEq, Repr

/-- Serialized size of a node, as measured by writeNodeToDisk: a uint32
item count, a uint32 child count, per item a uint16 key length, the key, a
uint16 value length and the value, and a uint64 offset per child. -/
def nodeSize (n : BNode) : Nat :=
  8 + (n.items.foldl (fun a kv => a + 4 + kv.1.length + kv.2.length) 0)
    + 8 * n.children.length

/-- isLeaf: a node with no child offsets. -/
def BNode.isLeaf (n : BNode) : Bool := n.children.length = 0

inductive BErr
  | keyNotFound    -- ports.ErrKeyNotFound and the "key not found" errors
  | pageOverflow   -- "node data exceeds page size"
  | readFailed     -- failed disk read (missing page)
  | panicked       -- an out-of-range slice index (a Go runtime panic)
  deriving DecidableEq, Repr

structure Btree where
  degree : Nat
  pageSize : Nat
  cacheSize : Nat
  length : Nat
  rootOffset : Nat
  nextOffset : Nat
  disk : List (Nat × BNode)
  header : Nat × Nat
  cache : List (Nat × BNode)
  deriving DecidableEq, Repr

/-- Result of a stateful B-tree operation: a value with the post state, an
error with the post state (Go errors leave all in-memory mutations in
place), or fuel exhaustion of the model's recursion bound (no counterpart
in the source; recursion there is bounded by the tree height). -/
inductive BRes (α : Type) where
  | ok (a : α) (s : Btree)
  | err (e : BErr) (s : Btree)
  | fuel
  deriving DecidableEq, Repr

/-- Sequencing of B-tree steps: run the continuation on success, return
the error (with its state) otherwise — the Go
`if err != nil { return err }` pattern. -/
def bindBR (r : BRes α) (g : α → Btree → BRes β) : BRes β :=
  match r with
  | .ok a s => g a s
  | .err e s => .err e s
  | .fuel => .fuel

/-- Lookup in an offset-keyed association list. -/
def olookup (off : Nat) : List (Nat × BNode) → Option BNode
  | [] => none
  | (o, n) :: rest => if o = off then some n else olookup off rest

/-- Store in an offset-keyed association list (replace or append). -/
def ostore (off : Nat) (n : BNode) : List (Nat × BNode) → List (Nat × BNode)
  | [] => [(off, n)]
  | (o, m) :: rest => if o = off then (off, n) :: rest else (o, m) :: ostore off n rest

/-- NewBtree on a fresh file: defaults applied, root offset 0, length 0,
next node offset at one page, header page read back as zeros. -/
def Btree.new (degree pageSize cacheSize : Nat) : Btree :=
  let d := if degree = 0 then 32 else degree
  let p := if pageSize = 0 then 4096 else pageSize
  { degree := d, pageSize := p, cacheSize := cacheSize, length := 0,
    rootOffset := 0, nextOffset := p, disk := [], header := (0, 0), cache := [] }

/-- saveHeader: persist the in-memory root offset and length to page 0. -/
def saveHeader (s : Btree) : Btree := { s with header := (s.rootOffset, s.length) }

/-- allocateNode: reserve the next page offset. -/
def allocateNode (s : Btree) : Nat × Btree :=
  (s.nextOffset, { s with nextOffset := s.nextOffset + s.pageSize })

/-- writeNodeToDisk: fails with the page-overflow error when the
serialized node exceeds the page size, otherwise stores the page. -/
def writeNodeToDisk (s : Btree) (n : BNode) (off : Nat) : BRes Unit :=
  if nodeSize n > s.pageSize then .err .pageOverflow s
  else .ok () { s with disk := ostore off { n with offset := off } s.disk }

/-- readNodeFromDisk: a missing page is a failed read. -/
def readNodeFromDisk (s : Btree) (off : Nat) : BRes BNode :=
  match olookup off s.disk with
  | some n => .ok n s
  | none => .err .readFailed s

/-- cacheNode: no-op when caching is disabled; an already cached offset is
updated and moved to the front; a new entry is pushed to the front,
evicting the least recently used entry when over capacity. -/
def cacheNode (s : Btree) (n : BNode) : Btree :=
  if s.cacheSize = 0 then s
  else match olookup n.offset s.cache with
    | some _ => { s with cache := (n.offset, n) :: s.cache.filter (fun p => p.1 ≠ n.offset) }
    | none =>
      let c := (n.offset, n) :: s.cache
      { s with cache := if c.length > s.cacheSize then c.dropLast else c }

/-- moveToFront: LRU promotion of a cached offset. -/
def moveToFront (s : Btree) (off : Nat) : Btree :=
  match olookup off s.cache with
  | some n => { s with cache := (off, n) :: s.cache.filter (fun p => p.1 ≠ off) }
  | none => s

/-- aliasWrite: the model of a Go in-place node mutation reaching the
cache through the shared pointer — the cached copy at that offset is
replaced where it stands; an uncached offset is untouched. -/
def aliasWrite (s : Btree) (off : Nat) (n : BNode) : Btree :=
  { s with cache := s.cache.map (fun p => if p.1 = off then (off, n) else p) }

/-- readNode: cache hit promotes and returns the cached node; miss reads
from disk and caches the decoded node when caching is enabled. -/
def readNode (s : Btree) (off : Nat) : BRes BNode :=
  if s.cacheSize > 0 then
    match olookup off s.cache with
    | some n => .ok n (moveToFront s off)
    | none =>
      match readNodeFromDisk s off with
      | .ok n s2 => .ok n (cacheNode s2 n)
      | r => r
  else readNodeFromDisk s off

/-- writeNode: write to disk, then insert or refresh the cache entry. -/
def writeNode (s : Btree) (n : BNode) (off : Nat) : BRes Unit :=
  match writeNodeToDisk s n off with
  | .ok _ s2 => .ok () (cacheNode s2 { n with offset := off })
  | r => r

/-- Insertion position scan of insertNonFull's leaf case, which walks the
items right-to-left shifting while key < item.key and places the new item
just after the first non-shifted position.  The argument is the reversed
item list. -/
def leafInsertRev (k v : Str) : List (Str × Str) → List (Str × Str)
  | [] => [(k, v)]
  | x :: rx => if ltStr k x.1 then x :: leafInsertRev k v rx else (k, v) :: x :: rx

/-- Leaf insertion of insertNonFull (shift-from-the-right loop). -/
def leafInsert (items : List (Str × Str)) (k v : Str) : List (Str × Str) :=
  (leafInsertRev k v items.reverse).reverse

/-- Child index scan of insertNonFull's internal case: walk right-to-left
while key < item.key, then step one right — the argument is the reversed
item list, the result the value of i after the i++ of the source. -/
def ubIndexRev (k : Str) : List (Str × Str) → Nat
  | [] => 0
  | x :: rx => if ltStr k x.1 then ubIndexRev k rx else rx.length + 1

/-- Child index used by insertNonFull to descend. -/
def ubIndex (items : List (Str × Str)) (k : Str) : Nat := ubIndexRev k items.reverse

/-- Position scan of searchValue and deleteFromNode: advance left-to-right
while key > item.key. -/
def lbIndex (k : Str) : List (Str × Str) → Nat
  | [] => 0
  | x :: xs => if ltStr x.1 k then lbIndex k xs + 1 else 0

/-- splitChild: move the median of the full child up into the parent at
position index, with the upper half of the child split off into a freshly
allocated node z inserted as child index+1.  Returns the updated parent
(the source mutates it in place).  The child, z and the parent are written
in that order, so a failing write leaves the earlier writes — and all
in-place mutations — behind. -/
def splitChild (s : Btree) (parent : BNode) (index : Nat) (child : BNode) : BRes BNode :=
  let t := s.degree
  match child.items.get? (t - 1) with
  | none => .err .panicked s
  | some median =>
    let child2 : BNode := { child with
      items := child.items.take (t - 1),
      children := child.children.take t }
    let (zOffset, s1) := allocateNode s
    let z : BNode := { items := child.items.drop t, children := child.children.drop t,
                       offset := zOffset }
    let parentChildren := if index + 1 ≥ parent.children.length
      then parent.children ++ [zOffset]
      else parent.children.take (index + 1) ++ [zOffset] ++ parent.children.drop (index + 1)
    let parent2 := { parent with
      items := parent.items.take index ++ [median] ++ parent.items.drop index,
      children := parentChildren }
    let s2 := aliasWrite (aliasWrite (aliasWrite s1 child.offset child2) zOffset z)
      parent.offset parent2
    bindBR (writeNode s2 child2 child.offset) (fun _ s3 =>
      bindBR (writeNode s3 z zOffset) (fun _ s4 =>
        bindBR (writeNode s4 parent2 parent.offset) (fun _ s5 => .ok parent2 s5)))

/-- insertNonFull: a leaf takes the item in sorted position and is written
back; an internal node descends into child i (splitting it first when
full), stepping right of the moved-up median when the key is greater.
Returns the node as left by the call (the source mutates it in place). -/
def insertNonFull (s : Btree) (n : BNode) (k v : Str) : Nat → BRes BNode
  | 0 => .fuel
  | fuel + 1 =>
    if n.isLeaf then
      let n2 := { n with items := leafInsert n.items k v }
      let s1 := aliasWrite s n.offset n2
      bindBR (writeNode s1 n2 n.offset) (fun _ s2 => .ok n2 s2)
    else
      let i := ubIndex n.items k
      match n.children.get? i with
      | none => .err .panicked s
      | some childOff =>
        bindBR (readNode s childOff) (fun child s1 =>
          if child.items.length = 2 * s.degree - 1 then
            bindBR (splitChild s1 n i child) (fun n2 s2 =>
              match n2.items.get? i with
              | none => .err .panicked s2
              | some it =>
                let j := if ltStr it.1 k then i + 1 else i
                match n2.children.get? j with
                | none => .err .panicked s2
                | some childOff2 =>
                  bindBR (readNode s2 childOff2) (fun child2 s3 =>
                    bindBR (insertNonFull s3 child2 k v fuel) (fun _ s4 => .ok n2 s4)))
          else
            bindBR (insertNonFull s1 child k v fuel) (fun _ s2 => .ok n s2))

/-- Btree.Insert.  An empty tree allocates a fresh single-item root.  A
full root is split under a new root first.  The item count and the header
are only updated after every node write succeeded — but node writes and
in-place mutations performed before a failure stay. -/
def Btree.insert (s : Btree) (k v : Str) (fuel : Nat) : BRes Unit :=
  if s.length = 0 then
    let (offset, s1) := allocateNode s
    let newNode : BNode := { items := [(k, v)], children := [], offset := offset }
    bindBR (writeNode s1 newNode offset) (fun _ s2 =>
      let s3 := saveHeader { s2 with rootOffset := offset, length := s2.length + 1 }
      .ok () (cacheNode s3 newNode))
  else
    bindBR (readNode s s.rootOffset) (fun root s1 =>
      if root.items.length = 2 * s.degree - 1 then
        let (newRootOffset, s2) := allocateNode s1
        let newRoot : BNode := { items := [], children := [root.offset],
                                 offset := newRootOffset }
        bindBR (splitChild s2 newRoot 0 root) (fun newRoot2 s3 =>
          bindBR (insertNonFull s3 newRoot2 k v fuel) (fun newRoot3 s4 =>
            bindBR (writeNode s4 newRoot3 newRootOffset) (fun _ s5 =>
              let s6 := cacheNode { s5 with rootOffset := newRootOffset } newRoot3
              .ok () (saveHeader { s6 with length := s6.length + 1 }))))
      else
        bindBR (insertNonFull s1 root k v fuel) (fun _ s2 =>
          .ok () (saveHeader { s2 with length := s2.length + 1 })))

/-- searchValue: scan to the first item with key ≤ item.key; equality hits,
a leaf misses with the key-not-found error, otherwise descend child i. -/
def searchValue (s : Btree) (off : Nat) (k : Str) : Nat → BRes Str
  | 0 => .fuel
  | fuel + 1 =>
    match readNode s off with
    | .err e s1 => .err e s1
    | .fuel => .fuel
    | .ok n s1 =>
      let i := lbIndex k n.items
      match n.items.get? i with
      | some it =>
        if it.1 = k then .ok it.2 s1
        else if n.isLeaf then .err .keyNotFound s1
        else match n.children.get? i with
          | some c => searchValue s1 c k fuel
          | none => .err .panicked s1
      | none =>
        if n.isLeaf then .err .keyNotFound s1
        else match n.children.get? i with
          | some c => searchValue s1 c k fuel
          | none => .err .panicked s1

/-- Btree.Get: an empty tree reports ports.ErrKeyNotFound, otherwise the
recursive search runs from the root. -/
def Btree.get (s : Btree) (k : Str) (fuel : Nat) : BRes Str :=
  if s.length = 0 then .err .keyNotFound s
  else searchValue s s.rootOffset k fuel

/-- getPredecessor: the last item of the rightmost leaf under n. -/
def getPredecessor (s : Btree) (n : BNode) : Nat → BRes (Str × Str)
  | 0 => .fuel
  | fuel + 1 =>
    if n.isLeaf then
      match n.items.getLast? with
      | some it => .ok it s
      | none => .err .panicked s
    else
      match n.children.getLast? with
      | none => .err .panicked s
      | some off =>
        match readNode s off with
        | .ok n2 s1 => getPredecessor s1 n2 fuel
        | .err e s1 => .err e s1
        | .fuel => .fuel

/-- getSuccessor: the first item of the leftmost leaf under n. -/
def getSuccessor (s : Btree) (n : BNode) : Nat → BRes (Str × Str)
  | 0 => .fuel
  | fuel + 1 =>
    if n.isLeaf then
      match n.items.head? with
      | some it => .ok it s
      | none => .err .panicked s
    else
      match n.children.head? with
      | none => .err .panicked s
      | some off =>
        match readNode s off with
        | .ok n2 s1 => getSuccessor s1 n2 fuel
        | .err e s1 => .err e s1
        | .fuel => .fuel

/-- mergeNodes: merge child idx+1 into child idx around the separating
item idx of the parent, removing both from the parent.  Returns the
updated parent. -/
def mergeNodes (s : Btree) (parent : BNode) (idx : Nat) : BRes BNode :=
  match parent.children.get? idx, parent.children.get? (idx + 1),
      parent.items.get? idx with
  | some leftOff, some rightOff, some sep =>
    match readNode s leftOff with
    | .err e s1 => .err e s1
    | .fuel => .fuel
    | .ok left s1 =>
      match readNode s1 rightOff with
      | .err e s2 => .err e s2
      | .fuel => .fuel
      | .ok right s2 =>
        let left2 := { left with
          items := left.items ++ [sep] ++ right.items,
          children := if left.isLeaf then left.children
                      else left.children ++ right.children }
        let parent2 := { parent with
          items := parent.items.take idx ++ parent.items.drop (idx + 1),
          children := parent.children.take (idx + 1) ++ parent.children.drop (idx + 2) }
        let s3 := aliasWrite (aliasWrite s2 left.offset left2) parent.offset parent2
        match writeNode s3 left2 left.offset with
        | .err e s4 => .err e s4
        | .fuel => .fuel
        | .ok _ s4 =>
          match writeNode s4 parent2 parent.offset with
          | .err e s5 => .err e s5
          | .fuel => .fuel
          | .ok _ s5 => .ok parent2 s5
  | _, _, _ => .err .panicked s

/-- borrowFromPrev: rotate the parent's separator idx-1 down into child
idx, pulling the left sibling's last item up. -/
def borrowFromPrev (s : Btree) (parent : BNode) (idx : Nat) : BRes BNode :=
  match parent.children.get? idx, parent.children.get? (idx - 1),
      parent.items.get? (idx - 1) with
  | some childOff, some leftOff, some sep =>
    match readNode s childOff with
    | .err e s1 => .err e s1
    | .fuel => .fuel
    | .ok child s1 =>
      match readNode s1 leftOff with
      | .err e s2 => .err e s2
      | .fuel => .fuel
      | .ok leftSibling s2 =>
        match leftSibling.items.getLast? with
        | none => .err .panicked s2
        | some lastItem =>
          let child2 := { child with
            items := sep :: child.items,
            children := if child.isLeaf then child.children
                        else leftSibling.children.getLast?.toList ++ child.children }
          let leftSibling2 := { leftSibling with
            items := leftSibling.items.dropLast,
            children := if child.isLeaf then leftSibling.children
                        else leftSibling.children.dropLast }
          let parent2 := { parent with
            items := parent.items.take (idx - 1) ++ [lastItem]
              ++ parent.items.drop idx }
          let s3 := aliasWrite (aliasWrite (aliasWrite s2 child.offset child2)
            leftSibling.offset leftSibling2) parent.offset parent2
          match writeNode s3 child2 child.offset with
          | .err e s4 => .err e s4
          | .fuel => .fuel
          | .ok _ s4 =>
            match writeNode s4 leftSibling2 leftSibling.offset with
            | .err e s5 => .err e s5
            | .fuel => .fuel
            | .ok _ s5 =>
              match writeNode s5 parent2 parent.offset with
              | .err e s6 => .err e s6
              | .fuel => .fuel
              | .ok _ s6 => .ok parent2 s6
  | _, _, _ => .err .panicked s

/-- borrowFromNext: rotate the parent's separator idx down into child idx,
pulling the right sibling's first item up. -/
def borrowFromNext (s : Btree) (parent : BNode) (idx : Nat) : BRes BNode :=
  match parent.children.get? idx, parent.children.get? (idx + 1),
      parent.items.get? idx with
  | some childOff, some rightOff, some sep =>
    match readNode s childOff with
    | .err e s1 => .err e s1
    | .fuel => .fuel
    | .ok child s1 =>
      match readNode s1 rightOff with
      | .err e s2 => .err e s2
      | .fuel => .fuel
      | .ok rightSibling s2 =>
        match rightSibling.items.head? with
        | none => .err .panicked s2
        | some firstItem =>
          let child2 := { child with
            items := child.items ++ [sep],
            children := if child.isLeaf then child.children
                        else child.children ++ rightSibling.children.head?.toList }
          let rightSibling2 := { rightSibling with
            items := rightSibling.items.drop 1,
            children := if child.isLeaf then rightSibling.children
                        else rightSibling.children.drop 1 }
          let parent2 := { parent with
            items := parent.items.take idx ++ [firstItem]
              ++ parent.items.drop (idx + 1) }
          let s3 := aliasWrite (aliasWrite (aliasWrite s2 child.offset child2)
            rightSibling.offset rightSibling2) parent.offset parent2
          match writeNode s3 child2 child.offset with
          | .err e s4 => .err e s4
          | .fuel => .fuel
          | .ok _ s4 =>
            match writeNode s4 rightSibling2 rightSibling.offset with
            | .err e s5 => .err e s5
            | .fuel => .fuel
            | .ok _ s5 =>
              match writeNode s5 parent2 parent.offset with
              | .err e s6 => .err e s6
              | .fuel => .fuel
              | .ok _ s6 => .ok parent2 s6
  | _, _, _ => .err .panicked s

/-- fill: give child idx at least degree items before descending into it —
borrow from a sibling with ≥ degree items (errors reading a sibling are
swallowed and skip that borrow), otherwise merge: with the left sibling
when idx > 0 (the merged node then lives at idx-1), else with the right.
Returns the updated parent. -/
def fill (s : Btree) (parent : BNode) (idx : Nat) : BRes BNode :=
  match parent.children.get? idx with
  | none => .err .panicked s
  | some childOff =>
    match readNode s childOff with
    | .err e s1 => .err e s1
    | .fuel => .fuel
    | .ok _ s1 =>
      let tryPrev : Option Btree ⊕ Btree :=
        if idx > 0 then
          match parent.children.get? (idx - 1) with
          | none => Sum.inl none
          | some leftOff =>
            match readNode s1 leftOff with
            | .ok leftSibling s2 =>
              if leftSibling.items.length ≥ s.degree then Sum.inr s2
              else Sum.inl (some s2)
            | .err _ s2 => Sum.inl (some s2)
            | .fuel => Sum.inl none
        else Sum.inl (some s1)
      match tryPrev with
      | Sum.inr s2 => borrowFromPrev s2 parent idx
      | Sum.inl none => .err .panicked s1
      | Sum.inl (some s2) =>
        let tryNext : Option Btree ⊕ Btree :=
          if idx < parent.children.length - 1 then
            match parent.children.get? (idx + 1) with
            | none => Sum.inl none
            | some rightOff =>
              match readNode s2 rightOff with
              | .ok rightSibling s3 =>
                if rightSibling.items.length ≥ s.degree then Sum.inr s3
                else Sum.inl (some s3)
              | .err _ s3 => Sum.inl (some s3)
              | .fuel => Sum.inl none
          else Sum.inl (some s2)
        match tryNext with
        | Sum.inr s3 => borrowFromNext s3 parent idx
        | Sum.inl none => .err .panicked s2
        | Sum.inl (some s3) =>
          if idx > 0 then mergeNodes s3 parent (idx - 1)
          else mergeNodes s3 parent idx

/-- Result of the hit test of deleteFromNode: item idx when it exists and
carries exactly the searched key. -/
def hitItem (items : List (Str × Str)) (idx : Nat) (k : Str) : Option (Str × Str) :=
  match items.get? idx with
  | some it => if it.1 = k then some it else none
  | none => none

/-- deleteFromNode: the CLRS delete cases.  On a miss in an internal node
whose target child is short, the child is first filled; the source then
re-reads the node and descends into childrenOffsets[idx] — even though a
merge inside fill may have moved the target child to idx-1 (or removed
index idx entirely, a Go index-out-of-range panic). -/
def deleteFromNode (s : Btree) (off : Nat) (k : Str) : Nat → BRes Unit
  | 0 => .fuel
  | fuel + 1 =>
    match readNode s off with
    | .err e s1 => .err e s1
    | .fuel => .fuel
    | .ok n s1 =>
      let idx := lbIndex k n.items
      match hitItem n.items idx k with
      | some _ =>
        if n.isLeaf then
          let n2 := { n with items := n.items.take idx ++ n.items.drop (idx + 1) }
          let s2 := aliasWrite s1 n.offset n2
          match writeNode s2 n2 off with
          | .err e s3 => .err e s3
          | .fuel => .fuel
          | .ok _ s3 => .ok () s3
        else
          match n.children.get? idx, n.children.get? (idx + 1) with
          | some leftOff, some rightOff =>
            match readNode s1 leftOff with
            | .err e s2 => .err e s2
            | .fuel => .fuel
            | .ok leftChild s2 =>
              if leftChild.items.length ≥ s.degree then
                match getPredecessor s2 leftChild fuel with
                | .err e s3 => .err e s3
                | .fuel => .fuel
                | .ok pred s3 =>
                  let n2 := { n with
                    items := n.items.take idx ++ [pred] ++ n.items.drop (idx + 1) }
                  let s4 := aliasWrite s3 n.offset n2
                  match writeNode s4 n2 n.offset with
                  | .err e s5 => .err e s5
                  | .fuel => .fuel
                  | .ok _ s5 => deleteFromNode s5 leftOff pred.1 fuel
              else
                match readNode s2 rightOff with
                | .err e s3 => .err e s3
                | .fuel => .fuel
                | .ok rightChild s3 =>
                  if rightChild.items.length ≥ s.degree then
                    match getSuccessor s3 rightChild fuel with
                    | .err e s4 => .err e s4
                    | .fuel => .fuel
                    | .ok succ s4 =>
                      let n2 := { n with
                        items := n.items.take idx ++ [succ] ++ n.items.drop (idx + 1) }
                      let s5 := aliasWrite s4 n.offset n2
                      match writeNode s5 n2 n.offset with
                      | .err e s6 => .err e s6
                      | .fuel => .fuel
                      | .ok _ s6 => deleteFromNode s6 rightOff succ.1 fuel
                  else
                    match mergeNodes s3 n idx with
                    | .err e s4 => .err e s4
                    | .fuel => .fuel
                    | .ok _ s4 => deleteFromNode s4 leftOff k fuel
          | _, _ => .err .panicked s1
      | none =>
        if n.isLeaf then .err .keyNotFound s1
        else
          match n.children.get? idx with
          | none => .err .panicked s1
          | some childOff =>
            match readNode s1 childOff with
            | .err e s2 => .err e s2
            | .fuel => .fuel
            | .ok child s2 =>
              if child.items.length < s.degree then
                match fill s2 n idx with
                | .err e s3 => .err e s3
                | .fuel => .fuel
                | .ok _ s3 =>
                  match readNode s3 n.offset with
                  | .err e s4 => .err e s4
                  | .fuel => .fuel
                  | .ok n2 s4 =>
                    match n2.children.get? idx with
                    | none => .err .panicked s4
                    | some childOff2 => deleteFromNode s4 childOff2 k fuel
              else deleteFromNode s2 childOff k fuel

/-- Btree.Delete: empty tree reports not-found; after a successful
recursive delete an emptied non-leaf root is replaced by its first child,
then the item count is decremented and the header saved. -/
def Btree.delete (s : Btree) (k : Str) (fuel : Nat) : BRes Unit :=
  if s.length = 0 then .err .keyNotFound s
  else
    match deleteFromNode s s.rootOffset k fuel with
    | .err e s1 => .err e s1
    | .fuel => .fuel
    | .ok _ s1 =>
      match readNode s1 s.rootOffset with
      | .err e s2 => .err e s2
      | .fuel => .fuel
      | .ok root s2 =>
        if root.items.length = 0 && !root.isLeaf then
          match root.children.get? 0 with
          | none => .err .panicked s2
          | some c0 =>
            let s3 := cacheNode { s2 with rootOffset := c0 } root
            .ok () (saveHeader { s3 with length := s3.length - 1 })
        else .ok () (saveHeader { s2 with length := s2.length - 1 })

/-! ### Helpers for running concrete operation sequences -/

/-- Sequence a B-tree step after a successful result (errors and fuel
exhaustion propagate). -/
def afterOk (r : BRes Unit) (f : Btree → BRes α) : BRes α :=
  match r with
  | .ok _ s => f s
  | .err e s => .err e s
  | .fuel => .fuel

/-- Value of a successful result. -/
def resVal : BRes α → Option α
  | .ok a _ => some a
  | _ => none

/-- Error of a failed result. -/
def resErr : BRes α → Option BErr
  | .err e _ => some e
  | _ => none

/-- State carried by a successful result. -/
def okState : BRes α → Option Btree
  | .ok _ s => some s
  | _ => none

/-- State carried by a failed result (Go leaves its in-memory mutations in
place when an operation returns an error). -/
def errState : BRes α → Option Btree
  | .err _ s => some s
  | _ => none

/-! ### Concrete scenarios used by the claims -/

/-- SSTable holding the single pair k ↦ v (k = "k", v = "v"). -/
def sstKV : SSTable := createSSTable [([107], [118])]

/-- LSM state whose only data is sstKV in level 0: fresh memtable, empty
block cache (capacity 100 entries), empty WAL. -/
def lsmKV : LSM :=
  { memTable := MemTable.new 1000, wal := [], cache := Cache.new 6400,
    levels := [[sstKV]], memTableSize := 1000 }

/-- lsmKV after reading k once (which copies the SSTable hit into the
block cache) and then deleting k (which stores a memtable tombstone). -/
def lsmKVdeleted : LSM := ((lsmKV.get [107]).2).delete [107]

/-- Fresh B-tree, degree 2, page size 4096, cache disabled. -/
def btPlain : Btree := Btree.new 2 4096 0

/-- btPlain after Insert("a","1") and then Insert("a","2"). -/
def btDupRun : BRes Unit :=
  afterOk (btPlain.insert [97] [49] 20) (fun s => s.insert [97] [50] 20)

/-- Keys a..f with values 0..5 (single-byte strings). -/
def sixPairs : List (Str × Str) :=
  [([97], [48]), ([98], [49]), ([99], [50]), ([100], [51]), ([101], [52]), ([102], [53])]

/-- btPlain after inserting a..f in order and then deleting "f": the tree
is root ("b","d") over leaves ("a"), ("c"), ("e"). -/
def btSixThenDelF : BRes Unit :=
  afterOk (sixPairs.foldl (fun r kv => afterOk r (fun s => s.insert kv.1 kv.2 20))
    (.ok () btPlain)) (fun s => s.delete [102] 20)

/-- The subsequent Delete("c"): its target child has degree-1 items and
both siblings are minimal, so fill merges it into the left sibling — and
the source then descends into childrenOffsets[idx] of the re-read parent,
which now holds the right sibling. -/
def btDelC : BRes Unit := afterOk btSixThenDelF (fun s => s.delete [99] 20)

/-- Fresh B-tree with page size 20 and a 1-node cache. -/
def btSmallPage : Btree := Btree.new 2 20 1

/-- Insert("a","b") — the 14-byte node fits — then Insert("c","xxxxxxxx"),
whose 27-byte serialized leaf exceeds the 20-byte page. -/
def btOverflowRun : BRes Unit :=
  afterOk (btSmallPage.insert [97] [98] 20)
    (fun s => s.insert [99] [120, 120, 120, 120, 120, 120, 120, 120] 20)

/-- State of btSmallPage after the fitting Insert("a","b"). -/
def btAfterA : Btree := (okState (btSmallPage.insert [97] [98] 20)).getD btSmallPage

/-- State returned alongside the page-overflow error of the second
insert of btOverflowRun. -/
def btOverflowErrState : Btree :=
  (errState (btAfterA.insert [99] [120, 120, 120, 120, 120, 120, 120, 120] 20)).getD
    btSmallPage

/-- Older level-0 SSTable of the compaction scenario: b ↦ "1". -/
def sstOld : SSTable := createSSTable [([98], [49])]

/-- Newer level-0 SSTable of the compaction scenario, from a later flush:
a ↦ "x" and the overwrite b ↦ "2". -/
def sstNew : SSTable := createSSTable [([97], [120]), ([98], [50])]

/-- LSM state with one level-0 SSTable, an empty memtable and an empty
cache. -/
def lsmOneTable : LSM :=
  { memTable := MemTable.new 1000, wal := [], cache := Cache.new 6400,
    levels := [[sstKV]], memTableSize := 1000 }

/-! ### Derived descriptions of the SSTable layout

These definitions restate what CreateSSTable/OpenSSTable compute in a
directly recursive form; the equalities are proved below and used to
state the round-trip and compaction theorems. -/

/-- The records CreateSSTable writes for a map: its keys sorted ascending,
each paired with its value. -/
def createRecords (data : List (Str × Str)) : List (Str × Str) :=
  (sortStrs (keysOf data)).map (fun k => (k, (alookup k data).getD []))

/-- Key-to-offset index of a record list laid out from a base offset. -/
def buildIndex (rs : List (Str × Str)) (offset : Nat) : List (Str × Nat) :=
  match rs with
  | [] => []
  | (k, v) :: rest => (k, offset) :: buildIndex rest (offset + (encRecord k v).length)

/-- The (index, minKey, maxKey) accumulator that both CreateSSTable's
write loop and OpenSSTable's scan loop compute over a record list: each
record stores its offset into the index, the min key latches on the
record at offset 0, the max key follows the last record. -/
def accOpen : List (Str × Str) → Nat → List (Str × Nat) → Str → Str →
    (List (Str × Nat) × Str × Str)
  | [], _, index, mn, mx => (index, mn, mx)
  | (k, v) :: rest, offset, index, mn, _mx =>
    accOpen rest (offset + (encRecord k v).length) (astore k offset index)
      (if offset = 0 then k else mn) k

/-- Key of the first record ("" when there is none). -/
def headKey (rs : List (Str × Str)) : Str :=
  match rs.head? with
  | some kv => kv.1
  | none => []

/-- Key of the last record ("" when there is none). -/
def lastKey (rs : List (Str × Str)) : Str :=
  match rs.getLast? with
  | some kv => kv.1
  | none => []

/-- The SSTable value describing a file holding exactly the record list
rs: min key = first key, max key = last key, index = offsets of rs, file =
records plus CRC trailer.  CreateSSTable over a duplicate-free map yields
exactly this for its sorted records, and OpenSSTable yields it back. -/
def mkSSTable (rs : List (Str × Str)) : SSTable :=
  { minKey := headKey rs, maxKey := lastKey rs, size := (encRecords rs).length,
    index := buildIndex rs 0,
    fileBytes := encRecords rs ++ be32 (crc32 (encRecords rs)) }

/-- Header view of a B-tree state: the in-memory item count and root
offset together with the persisted header page. -/
def hdrOf (s : Btree) : Nat × Nat × (Nat × Nat) := (s.length, s.rootOffset, s.header)

/-- Header view of the state carried by a B-tree result (none for fuel
exhaustion, which carries no state). -/
def bresHdr : BRes α → Option (Nat × Nat × (Nat × Nat))
  | .ok _ s => some (hdrOf s)
  | .err _ s => some (hdrOf s)
  | .fuel => none

/-- A value of 65536 bytes: its uint16 length prefix truncates to 0. -/
def bigVal : Str := List.replicate 65536 97

/-- The single-pair map whose value is 65536 bytes long. -/
def c8data : List (Str × Str) := [([107], bigVal)]

/-! ### C1 -/

/-- C1: refuted as stated — with sstKV's k in the block cache (a get
served from the SSTable put it there) and the tombstone for k in the
active memtable after Delete(k), Get(k) returns the cached pre-delete
value "v" instead of not-found: MemTable.Get reports a tombstone as a
plain miss, so LSMTree.Get falls through to the cache.  The spec's claimed
tombstone bypass of the cache does not exist in the code. -/
theorem c1_tombstone_masked_by_cache :
    alookup [107] lsmKVdeleted.memTable.entries = some tombstone ∧
    alookup [107] lsmKVdeleted.cache.entries = some [118] ∧
    (lsmKVdeleted.get [107]).1 = some [118] := by decide

/-! ### C3 -/

/-- C3: refuted on the B-tree backend — after inserting a..f and deleting
"f", the key "c" is present (Get returns "2"), yet Delete("c") fails with
the key-not-found error, because fill merged the target child into its
left sibling and deleteFromNode then descended into the wrong child;
the failed delete also leaves "c" in the tree.  The claim's delete(k);
get(k) = not-found therefore fails for a present key. -/
theorem c3_btree_delete_misses_present_key :
    (afterOk btSixThenDelF (fun s => s.get [99] 20) |> resVal) = some [50] ∧
    resErr btDelC = some BErr.keyNotFound ∧
    ((errState btDelC).map (fun s => resVal (s.get [99] 20))) = some (some [50]) := by
  decide

/-! ### C2 counterexample -/

/-- C2 counterexample: on the B-tree backend, Insert("a","1") then
Insert("a","2") both return ok, but Get("a") returns the pre-insert value
"1", not "2" — insertNonFull keeps the old item and appends a duplicate
behind it, and searchValue finds the old item first.  This refutes the
claim for a key already present with a different value. -/
theorem c2_btree_insert_existing_key_counterexample :
    (okState btDupRun).isSome = true ∧
    resVal (afterOk btDupRun (fun s => s.get [97] 20)) = some [49] ∧
    some [49] ≠ some [50] := by decide

/-! ### C4 counterexample -/

/-- C4 counterexample: level 0 holds sstOld (older, b ↦ "1") and sstNew
(newer, b ↦ "2"); the code keeps level 0 sorted by minKey, i.e.
[sstNew, sstOld], so the concatenating merge places the older b record
after the newer one, the rebuilt index points at the older record, and the
merged lookup of b returns "1" — not the newest input's "2".  Last-write-
wins is violated. -/
theorem c4_merge_not_last_write_wins :
    sortByMinKey [sstOld, sstNew] = [sstNew, sstOld] ∧
    sstNew.get [98] = some [50] ∧
    ((mergeSSTables [sstNew, sstOld]).bind (fun m => m.get [98])) = some [49] ∧
    some [49] ≠ some [50] := by decide

/-! ### C5 counterexample -/

/-- C5 counterexample: with exactly one level-0 SSTable (and an empty
memtable), ForceCompaction returns ok but changes nothing: Compact's
4-SSTable threshold also gates forced compaction, so the table stays at
level 0 and no level 1 exists — refuting the claim that force_compaction
itself triggers the merge and leaves one SSTable at level 1. -/
theorem c5_force_compaction_below_threshold :
    lsmOneTable.forceCompaction = Except.ok lsmOneTable ∧
    lsmOneTable.levels = [[sstKV]] ∧
    lsmOneTable.levels.get? 1 = none := by decide

/-! ### C6 counterexample -/

/-- C6 counterexample: the WAL record for Delete("a") is
[0x01, 0x00, 0x01, 97, 0x00, 0x00] — six bytes, carrying a value-length
field after the key — whereas the claimed format (a delete record ends
immediately after the key bytes) would be the four bytes
[0x01, 0x00, 0x01, 97].  The writer emits the value-length and value
bytes for every op code. -/
theorem c6_delete_record_has_value_field :
    encodeWalEntry ⟨0x01, [97], []⟩ = [1, 0, 1, 97, 0, 0] ∧
    encodeWalEntry ⟨0x01, [97], []⟩ ≠ [1] ++ be16 1 ++ [97] := by decide

/-! ### C7 counterexample -/

/-- C7 counterexample: with page size 20 and a non-zero node cache, the
overflowing Insert("c","xxxxxxxx") returns the page-overflow error and
persists nothing — but the leaf was mutated in place before the failed
write, the cache still references that node, and the subsequent Get("c")
served from the cache returns the rejected value instead of the
pre-insert not-found. -/
theorem c7_overflow_insert_poisons_cache :
    resErr btOverflowRun = some BErr.pageOverflow ∧
    ((errState btOverflowRun).map (fun s => resVal (s.get [99] 20)))
      = some (some [120, 120, 120, 120, 120, 120, 120, 120]) := by decide

/-! ### C9 -/

/-- C9: an insert whose added size len(key)+len(value) brings the byte
counter exactly to the cap succeeds (the guard rejects only a projected
size strictly above the cap), and on the resulting table any insert with
positive added size projects above the cap and fails with
ErrMemTableFull. -/
theorem c9_memtable_cap_boundary (m : MemTable) (k v : Str)
    (hfit : m.size + (k.length + v.length) = m.maxSize) :
    ∃ m2, m.insert k v = some m2 ∧ m2.size = m.maxSize ∧
      ∀ k2 v2 : Str, 0 < k2.length + v2.length → m2.insert k2 v2 = none := by
  refine ⟨{ m with entries := astore k v m.entries, size := m.size + (k.length + v.length) },
    ?_, ?_, ?_⟩
  · unfold MemTable.insert
    simp only [hfit]
    simp
  · simpa using hfit
  · intro k2 v2 hpos
    unfold MemTable.insert
    simp only []
    rw [if_pos]
    simp only [hfit]
    omega

/-- Witness for C9 at a concrete input: cap 10, first insert of total size
10, second insert of total size 1. -/
theorem c9_memtable_cap_boundary_witness :
    ∃ m2, (MemTable.mk [] 0 10).insert [1, 2, 3, 4, 5] [6, 7, 8, 9, 10] = some m2 ∧
      m2.size = (MemTable.mk [] 0 10).maxSize ∧
      ∀ k2 v2 : Str, 0 < k2.length + v2.length → m2.insert k2 v2 = none :=
  c9_memtable_cap_boundary (MemTable.mk [] 0 10) [1, 2, 3, 4, 5] [6, 7, 8, 9, 10]
    (by decide)

/-! ### Association lists -/

theorem alookup_astore_self (k : Str) (v : α) (l : List (Str × α)) :
    alookup k (astore k v l) = some v := by
  induction l with
  | nil => simp [astore, alookup]
  | cons hd tl ih =>
    rcases hd with ⟨k2, v2⟩
    by_cases h : k2 = k
    · simp [astore, alookup, h]
    · simp [astore, alookup, h, ih]

theorem alookup_astore_ne (k k2 : Str) (v : α) (l : List (Str × α)) (h : k2 ≠ k) :
    alookup k2 (astore k v l) = alookup k2 l := by
  induction l with
  | nil => simp [astore, alookup, Ne.symm h]
  | cons hd tl ih =>
    rcases hd with ⟨k3, v3⟩
    by_cases h2 : k3 = k
    · subst h2
      simp [astore, alookup, Ne.symm h]
    · by_cases h3 : k3 = k2 <;> simp [astore, alookup, h2, h3, h, ih]

theorem alookup_mem {k : Str} {v : α} {l : List (Str × α)}
    (h : alookup k l = some v) : (k, v) ∈ l := by
  induction l with
  | nil => simp [alookup] at h
  | cons hd tl ih =>
    rcases hd with ⟨k2, v2⟩
    by_cases h2 : k2 = k
    · subst h2
      simp [alookup] at h
      subst h
      exact List.mem_cons_self _ _
    · simp [alookup, h2] at h
      exact List.mem_cons_of_mem _ (ih h)

theorem alookup_isSome_of_mem_keys {k : Str} {l : List (Str × α)}
    (h : k ∈ keysOf l) : ∃ v, alookup k l = some v := by
  induction l with
  | nil => simp [keysOf] at h
  | cons hd tl ih =>
    rcases hd with ⟨k2, v2⟩
    by_cases h2 : k2 = k
    · exact ⟨v2, by simp [alookup, h2]⟩
    · simp [keysOf, h2, Ne.symm h2] at h
      rcases ih (by simpa [keysOf] using h) with ⟨v, hv⟩
      exact ⟨v, by simpa [alookup, h2] using hv⟩

theorem alookup_none_of_not_mem_keys {k : Str} {l : List (Str × α)}
    (h : k ∉ keysOf l) : alookup k l = none := by
  induction l with
  | nil => simp [alookup]
  | cons hd tl ih =>
    rcases hd with ⟨k2, v2⟩
    simp [keysOf] at h
    simp [alookup, Ne.symm h.1, ih (by simpa [keysOf] using h.2)]

theorem keysOf_filter_subset (p : Str × α → Bool) (l : List (Str × α)) :
    keysOf (l.filter p) ⊆ keysOf l := by
  intro a ha
  simp only [keysOf, List.mem_map] at ha ⊢
  rcases ha with ⟨kv, hkv, rfl⟩
  exact ⟨kv, List.mem_of_mem_filter hkv, rfl⟩

/-! ### Sorting -/

theorem mem_insertSortedKey (a k : Str) (l : List Str) :
    a ∈ insertSortedKey k l ↔ a = k ∨ a ∈ l := by
  induction l with
  | nil => simp [insertSortedKey]
  | cons hd tl ih =>
    by_cases h : ltStr k hd <;> simp [insertSortedKey, h, ih] <;> tauto

theorem mem_sortStrs (a : Str) (l : List Str) : a ∈ sortStrs l ↔ a ∈ l := by
  induction l with
  | nil => simp [sortStrs]
  | cons hd tl ih =>
    simp [sortStrs, mem_insertSortedKey] at *
    tauto

/-! ### C10 -/

theorem alookup_createLoop_none (data : List (Str × Str)) (k : Str) :
    ∀ (ks : List Str) (off : Nat) (index : List (Str × Nat)) (mn mx : Str)
      (body : List Nat), k ∉ ks → alookup k index = none →
      alookup k (createLoop data ks off index mn mx body).1 = none := by
  intro ks
  induction ks with
  | nil => intro off index mn mx body _ hidx; simpa [createLoop] using hidx
  | cons hd tl ih =>
    intro off index mn mx body hks hidx
    simp at hks
    exact ih _ _ _ _ _ hks.2 (by rw [alookup_astore_ne _ _ _ _ hks.1]; exact hidx)

theorem keysOf_cons (hd : Str × α) (tl : List (Str × α)) :
    keysOf (hd :: tl) = hd.1 :: keysOf tl := rfl

theorem not_mem_filtered_keys {k : Str} {l : List (Str × Str)}
    (hnodup : (keysOf l).Nodup) (h : alookup k l = some tombstone) :
    k ∉ keysOf (l.filter (fun kv => kv.2 ≠ tombstone)) := by
  induction l with
  | nil => simp [alookup] at h
  | cons hd tl ih =>
    rw [keysOf_cons] at hnodup
    rcases List.nodup_cons.mp hnodup with ⟨hhd, htl⟩
    by_cases h2 : hd.1 = k
    · have hval : hd.2 = tombstone := by simpa [alookup, h2] using h
      have hdrop : (hd :: tl).filter (fun kv => kv.2 ≠ tombstone)
          = tl.filter (fun kv => kv.2 ≠ tombstone) := by
        simp [List.filter, hval]
      rw [hdrop]
      intro hx
      exact hhd (h2 ▸ keysOf_filter_subset _ tl hx)
    · have htail : alookup k tl = some tombstone := by simpa [alookup, h2] using h
      have ihk := ih htl htail
      by_cases hp : hd.2 ≠ tombstone
      · intro hx
        rw [List.filter_cons_of_pos (by simpa using hp), keysOf_cons] at hx
        rcases List.mem_cons.mp hx with hx | hx
        · exact h2 hx.symm
        · exact ihk hx
      · intro hx
        rw [List.filter_cons_of_neg (by simpa using hp)] at hx
        exact ihk hx

/-- C10: flushing discards tombstones.  For any memtable (with the
duplicate-free key set every reachable memtable has), the Swap snapshot
contains no tombstone value, the records CreateSSTable writes for that
snapshot contain no tombstone value, and a key whose memtable entry is the
tombstone is absent from the created SSTable's index: a delete that has
only reached the memtable is discarded by the flush. -/
theorem c10_flush_filters_tombstones (m : MemTable)
    (hnodup : (keysOf m.entries).Nodup) :
    (∀ kv ∈ (m.swap).1, kv.2 ≠ tombstone) ∧
    (∀ kv ∈ createRecords (m.swap).1, kv.2 ≠ tombstone) ∧
    (∀ k, alookup k m.entries = some tombstone →
      alookup k (createSSTable (m.swap).1).index = none) := by
  have hswap : (m.swap).1 = m.entries.filter (fun kv => kv.2 ≠ tombstone) := rfl
  refine ⟨?_, ?_, ?_⟩
  · intro kv hkv
    rw [hswap] at hkv
    exact of_decide_eq_true (List.mem_filter.mp hkv).2
  · intro kv hkv
    simp only [createRecords, List.mem_map] at hkv
    rcases hkv with ⟨k, hk, rfl⟩
    rw [mem_sortStrs] at hk
    rcases alookup_isSome_of_mem_keys hk with ⟨v, hv⟩
    have hmem := alookup_mem hv
    rw [hswap] at hmem
    have hne : v ≠ tombstone := of_decide_eq_true (List.mem_filter.mp hmem).2
    simpa [hv] using hne
  · intro k hk
    have hidx : (createSSTable (m.swap).1).index
        = (createLoop (m.swap).1 (sortStrs (keysOf (m.swap).1)) 0 [] [] [] []).1 := rfl
    rw [hidx]
    apply alookup_createLoop_none
    · rw [mem_sortStrs]
      intro hmemk
      exact not_mem_filtered_keys hnodup hk
        (by simpa [MemTable.swap] using hmemk)
    · simp [alookup]

/-- Witness for C10 at a concrete memtable holding one tombstoned key and
one live key. -/
theorem c10_flush_filters_tombstones_witness :
    (∀ kv ∈ ((MemTable.mk [([97], tombstone), ([98], [50])] 13 100).swap).1,
      kv.2 ≠ tombstone) ∧
    (∀ kv ∈ createRecords ((MemTable.mk [([97], tombstone), ([98], [50])] 13 100).swap).1,
      kv.2 ≠ tombstone) ∧
    (∀ k, alookup k (MemTable.mk [([97], tombstone), ([98], [50])] 13 100).entries
        = some tombstone →
      alookup k (createSSTable
        ((MemTable.mk [([97], tombstone), ([98], [50])] 13 100).swap).1).index = none) :=
  c10_flush_filters_tombstones (MemTable.mk [([97], tombstone), ([98], [50])] 13 100)
    (by decide)

/-! ### C2 (amended, LSM part) -/

theorem mtInsert_get {m m2 : MemTable} {k v : Str} (h : m.insert k v = some m2)
    (hv : v ≠ tombstone) : m2.get k = some v := by
  unfold MemTable.insert at h
  by_cases hc : m.size + (k.length + v.length) > m.maxSize
  · simp [hc] at h
  · simp only [hc, if_false] at h
    rw [← Option.some_inj.mp h]
    unfold MemTable.get
    rw [alookup_astore_self]
    simp [hv]

/-- C2 (amended): on the LSM backend, an insert of any key k with a value
v other than the tombstone sentinel that returns ok leaves the active
memtable holding k ↦ v, so an immediate Get(k) returns v — including when
k was already present: the memtable store overwrites.  (The B-tree
backend violates the already-present case; see the counterexample.) -/
theorem c2_lsm_insert_then_get (l : LSM) (k v : Str) (l2 : LSM)
    (hv : v ≠ tombstone) (h : l.insert k v = Except.ok l2) :
    (l2.get k).1 = some v := by
  simp only [LSM.insert] at h
  have hget : l2.memTable.get k = some v := by
    split at h
    · rename_i mt2 hins
      cases h
      exact mtInsert_get hins hv
    · split at h
      · rename_i mt2 hins
        cases h
        exact mtInsert_get hins hv
      · cases h
  unfold LSM.get
  rw [hget]

/-- Witness for C2's amended theorem: inserting into a fresh LSM state
(over an existing binding of the same key). -/
theorem c2_lsm_insert_then_get_witness :
    ((LSM.mk (MemTable.mk [([107], [1])] 2 1000) [] (Cache.new 6400) [[]] 1000).insert
        [107] [118] = Except.ok
      (LSM.mk (MemTable.mk [([107], [118])] 4 1000) [WalEntry.mk 0x00 [107] [118]]
        (Cache.new 6400) [[]] 1000)) ∧
    ((LSM.mk (MemTable.mk [([107], [118])] 4 1000) [WalEntry.mk 0x00 [107] [118]]
        (Cache.new 6400) [[]] 1000).get [107]).1 = some [118] :=
  ⟨by decide,
    c2_lsm_insert_then_get
      (LSM.mk (MemTable.mk [([107], [1])] 2 1000) [] (Cache.new 6400) [[]] 1000)
      [107] [118]
      (LSM.mk (MemTable.mk [([107], [118])] 4 1000) [WalEntry.mk 0x00 [107] [118]]
        (Cache.new 6400) [[]] 1000)
      (by decide) (by decide)⟩

/-! ### Byte-level reading lemmas -/

theorem readBytes_of_append (pre l rest : List Nat) :
    readBytes (pre ++ l ++ rest) pre.length l.length = some l := by
  unfold readBytes
  rw [if_pos]
  · rw [List.append_assoc, List.drop_left, List.take_left]
  · simp only [List.length_append]
    omega

theorem readBytes_at {file A l R : List Nat} {pos n : Nat}
    (hf : file = A ++ l ++ R) (hp : pos = A.length) (hn : n = l.length) :
    readBytes file pos n = some l := by
  subst hf hp hn
  exact readBytes_of_append A l R

theorem deBE16_be16 (n : Nat) : deBE16 (n / 256 % 256) (n % 256) = n % 65536 := by
  unfold deBE16
  omega

theorem readU16_at {file A R : List Nat} {n pos : Nat}
    (hf : file = A ++ be16 n ++ R) (hp : pos = A.length) :
    readU16 file pos = some (n % 65536) := by
  have h : readBytes file pos 2 = some (be16 n) :=
    readBytes_at hf hp (by simp [be16])
  unfold readU16
  rw [h]
  show some (deBE16 (n / 256 % 256) (n % 256)) = some (n % 65536)
  rw [deBE16_be16]

theorem headD_at {file A R : List Nat} {b pos : Nat}
    (hf : file = A ++ b :: R) (hp : pos = A.length) :
    (file.drop pos).headD 0 = b := by
  subst hf hp
  rw [List.drop_left]
  rfl

/-! ### WAL replay round trip -/

theorem encodeWal_cons (e : WalEntry) (es : List WalEntry) :
    encodeWal (e :: es) = encodeWalEntry e ++ encodeWal es := by
  simp [encodeWal]

theorem recoverLoop_step (file : List Nat) (f : Nat) (pre : List Nat) (e : WalEntry)
    (suffix : List Nat) (m : MemTable)
    (hf : file = pre ++ encodeWalEntry e ++ suffix)
    (hk : e.key.length < 65536) (hv : e.value.length < 65536) :
    recoverLoop file (f + 1) pre.length m
      = recoverLoop file f (pre ++ encodeWalEntry e).length (applyWalEntry m e) := by
  have henc : encodeWalEntry e
      = [e.op] ++ be16 e.key.length ++ e.key ++ be16 e.value.length ++ e.value := rfl
  have hlen : pre.length < file.length := by
    rw [hf, henc]
    simp [be16] <;> omega
  have hop : (file.drop pre.length).headD 0 = e.op :=
    headD_at (A := pre)
      (R := be16 e.key.length ++ e.key ++ be16 e.value.length ++ e.value ++ suffix)
      (by rw [hf, henc]; simp) rfl
  have hku : readU16 file (pre.length + 1) = some (e.key.length % 65536) :=
    readU16_at (A := pre ++ [e.op])
      (R := e.key ++ be16 e.value.length ++ e.value ++ suffix)
      (by rw [hf, henc]; simp) (by simp)
  have hkey : readBytes file (pre.length + 3) e.key.length = some e.key :=
    readBytes_at (A := pre ++ [e.op] ++ be16 e.key.length)
      (R := be16 e.value.length ++ e.value ++ suffix)
      (by rw [hf, henc]; simp) (by simp [be16] <;> omega) rfl
  have hvu : readU16 file (pre.length + 3 + e.key.length)
      = some (e.value.length % 65536) :=
    readU16_at (A := pre ++ [e.op] ++ be16 e.key.length ++ e.key)
      (R := e.value ++ suffix)
      (by rw [hf, henc]; simp) (by simp [be16] <;> omega)
  have hval : readBytes file (pre.length + 5 + e.key.length) e.value.length
      = some e.value :=
    readBytes_at (A := pre ++ [e.op] ++ be16 e.key.length ++ e.key ++ be16 e.value.length)
      (R := suffix)
      (by rw [hf, henc]; simp) (by simp [be16] <;> omega) rfl
  rw [Nat.mod_eq_of_lt hk] at hku
  rw [Nat.mod_eq_of_lt hv] at hvu
  simp only [recoverLoop, hlen, if_true, hop, hku, hkey, hvu, hval]
  have harg : pre.length + 5 + e.key.length + e.value.length
      = (pre ++ encodeWalEntry e).length := by
    rw [henc]
    simp [be16]
    omega
  rw [harg]

theorem recoverLoop_encodeWal (es : List WalEntry) :
    ∀ (pre : List Nat) (fuel : Nat) (m : MemTable),
      (∀ e ∈ es, e.key.length < 65536 ∧ e.value.length < 65536) →
      es.length < fuel →
      recoverLoop (pre ++ encodeWal es) fuel pre.length m = es.foldl applyWalEntry m := by
  induction es with
  | nil =>
    intro pre fuel m _ hfuel
    cases fuel with
    | zero => omega
    | succ f =>
      show recoverLoop (pre ++ []) (f + 1) pre.length m = m
      simp only [recoverLoop, List.append_nil]
      rw [if_neg]
      omega
  | cons e rest ih =>
    intro pre fuel m hb hfuel
    cases fuel with
    | zero => omega
    | succ f =>
      rw [encodeWal_cons, ← List.append_assoc]
      rw [recoverLoop_step (pre ++ encodeWalEntry e ++ encodeWal rest) f pre e
        (encodeWal rest) m rfl (hb e (by simp)).1 (hb e (by simp)).2]
      rw [List.foldl_cons]
      exact ih (pre ++ encodeWalEntry e) f (applyWalEntry m e)
        (fun e2 h2 => hb e2 (by simp [h2]))
        (by simpa using Nat.lt_of_succ_lt_succ hfuel)

theorem length_le_encodeWal (es : List WalEntry) : es.length ≤ (encodeWal es).length := by
  induction es with
  | nil => simp [encodeWal]
  | cons e rest ih =>
    rw [encodeWal_cons]
    have : 1 ≤ (encodeWalEntry e).length := by
      show 1 ≤ ([e.op] ++ be16 e.key.length ++ e.key ++ be16 e.value.length
        ++ e.value).length
      simp
    simp only [List.length_append, List.length_cons]
    omega

/-- C6 (amended): every WAL record — insert and delete alike — is the op
byte, the big-endian 2-byte key length, the key bytes, the big-endian
2-byte value length and the value bytes (LSMTree.Delete enqueues an empty
value, so a delete record ends with a zero value-length field after the
key); and WAL replay parses a stream of such records back into exactly
the same sequence of memtable operations. -/
theorem c6_wal_format_and_replay (es : List WalEntry) (m : MemTable)
    (hb : ∀ e ∈ es, e.key.length < 65536 ∧ e.value.length < 65536) :
    (∀ e ∈ es, encodeWalEntry e
      = [e.op] ++ be16 e.key.length ++ e.key ++ be16 e.value.length ++ e.value) ∧
    recoverFromWAL (encodeWal es) m = es.foldl applyWalEntry m := by
  constructor
  · intro e _
    rfl
  · unfold recoverFromWAL
    have h := recoverLoop_encodeWal es [] ((encodeWal es).length + 1) m hb
      (Nat.lt_succ_of_le (length_le_encodeWal es))
    simpa using h

/-- Witness for C6 at a concrete log: an insert of (a,1), a delete of a,
and an insert of (bc,23), replayed onto an empty memtable. -/
theorem c6_wal_format_and_replay_witness :
    (∀ e ∈ [WalEntry.mk 0 [97] [49], WalEntry.mk 1 [97] [], WalEntry.mk 0 [98, 99] [50, 51]],
      encodeWalEntry e
        = [e.op] ++ be16 e.key.length ++ e.key ++ be16 e.value.length ++ e.value) ∧
    recoverFromWAL
        (encodeWal [WalEntry.mk 0 [97] [49], WalEntry.mk 1 [97] [],
          WalEntry.mk 0 [98, 99] [50, 51]]) (MemTable.new 100)
      = [WalEntry.mk 0 [97] [49], WalEntry.mk 1 [97] [],
          WalEntry.mk 0 [98, 99] [50, 51]].foldl applyWalEntry (MemTable.new 100) :=
  c6_wal_format_and_replay
    [WalEntry.mk 0 [97] [49], WalEntry.mk 1 [97] [], WalEntry.mk 0 [98, 99] [50, 51]]
    (MemTable.new 100) (by decide)

/-! ### Order lemmas for the byte-wise string comparison -/

theorem ltStr_irrefl (a : Str) : ltStr a a = false := by
  induction a with
  | nil => rfl
  | cons x xs ih => simp [ltStr, ih]

theorem ltStr_asymm : ∀ {a b : Str}, ltStr a b = true → ltStr b a = false := by
  intro a
  induction a with
  | nil =>
    intro b h
    cases b with
    | nil => exact absurd h (by simp [ltStr])
    | cons y ys => rfl
  | cons x xs ih =>
    intro b h
    cases b with
    | nil => exact absurd h (by simp [ltStr])
    | cons y ys =>
      by_cases h1 : x < y
      · have h2 : ¬y < x := by omega
        simp [ltStr, h1, h2]
      · by_cases h2 : y < x
        · simp [ltStr, h1, h2] at h
        · simp [ltStr, h1, h2] at h ⊢
          exact ih h

theorem nodup_of_pairwise_ltStr {l : List Str}
    (h : List.Pairwise (fun a b => ltStr a b = true) l) : l.Nodup := by
  refine h.imp ?_
  intro a b hab
  intro hEq
  subst hEq
  rw [ltStr_irrefl] at hab
  cases hab

/-! ### Permutation of the key sort -/

theorem insertSortedKey_perm (k : Str) (l : List Str) :
    (insertSortedKey k l).Perm (k :: l) := by
  induction l with
  | nil => simp [insertSortedKey]
  | cons x xs ih =>
    by_cases h : ltStr k x
    · simp [insertSortedKey, h]
    · simp only [insertSortedKey, h, if_false]
      exact ((ih.cons x).trans (List.Perm.swap k x xs))

theorem sortStrs_perm (l : List Str) : (sortStrs l).Perm l := by
  induction l with
  | nil => simp [sortStrs]
  | cons x xs ih =>
    have : sortStrs (x :: xs) = insertSortedKey x (sortStrs xs) := rfl
    rw [this]
    exact (insertSortedKey_perm x (sortStrs xs)).trans (ih.cons x)

/-! ### CRC32 bound and trailer decoding -/

theorem crc32Step_lt {c : Nat} (h : c < 4294967296) : crc32Step c < 4294967296 := by
  unfold crc32Step
  split
  · have h1 : c / 2 < 2 ^ 32 := by omega
    have h2 : crc32Poly < 2 ^ 32 := by norm_num [crc32Poly]
    have := Nat.xor_lt_two_pow h1 h2
    simpa using this
  · omega

theorem crc32Step_iter_lt (n : Nat) {c : Nat} (h : c < 4294967296) :
    crc32Step^[n] c < 4294967296 := by
  induction n generalizing c with
  | zero => simpa using h
  | succ m ih =>
    rw [Function.iterate_succ_apply]
    exact ih (crc32Step_lt h)

theorem crc32Byte_lt {c : Nat} (b : Nat) (h : c < 4294967296) :
    crc32Byte c b < 4294967296 := by
  unfold crc32Byte
  apply crc32Step_iter_lt
  have h1 : c < 2 ^ 32 := by omega
  have h2 : b % 256 < 2 ^ 32 := by omega
  have := Nat.xor_lt_two_pow h1 h2
  simpa using this

theorem crc32_lt (bs : List Nat) : crc32 bs < 4294967296 := by
  unfold crc32
  have hfold : ∀ (l : List Nat) (c : Nat), c < 4294967296 →
      l.foldl crc32Byte c < 4294967296 := by
    intro l
    induction l with
    | nil => intro c h; simpa using h
    | cons b rest ih =>
      intro c h
      exact ih (crc32Byte c b) (crc32Byte_lt b h)
  have h1 : List.foldl crc32Byte 4294967295 bs < 2 ^ 32 := by
    have := hfold bs 4294967295 (by norm_num)
    simpa using this
  have h2 : (4294967295 : Nat) < 2 ^ 32 := by norm_num
  have := Nat.xor_lt_two_pow h1 h2
  simpa using this

theorem deBE32_be32 (n : Nat) :
    deBE32 (n / 16777216 % 256) (n / 65536 % 256) (n / 256 % 256) (n % 256)
      = n % 4294967296 := by
  unfold deBE32
  omega

theorem readU32_at {file A R : List Nat} {n pos : Nat}
    (hf : file = A ++ be32 n ++ R) (hp : pos = A.length) :
    readU32 file pos = some (n % 4294967296) := by
  have h : readBytes file pos 4 = some (be32 n) :=
    readBytes_at hf hp (by simp [be32])
  unfold readU32
  rw [h]
  show some (deBE32 (n / 16777216 % 256) (n / 65536 % 256) (n / 256 % 256) (n % 256))
    = some (n % 4294967296)
  rw [deBE32_be32]

/-! ### SSTable record layout lemmas -/

theorem encRecord_eq (k v : Str) :
    encRecord k v = be16 k.length ++ k ++ be16 v.length ++ v := rfl

theorem encRecord_length (k v : Str) :
    (encRecord k v).length = 4 + k.length + v.length := by
  simp [encRecord, be16] <;> omega

theorem encRecords_cons (kv : Str × Str) (rs : List (Str × Str)) :
    encRecords (kv :: rs) = encRecord kv.1 kv.2 ++ encRecords rs := by
  simp [encRecords]

theorem encRecords_append (a b : List (Str × Str)) :
    encRecords (a ++ b) = encRecords a ++ encRecords b := by
  simp [encRecords]

theorem length_le_encRecords (rs : List (Str × Str)) :
    rs.length ≤ (encRecords rs).length := by
  induction rs with
  | nil => simp [encRecords]
  | cons kv rest ih =>
    rw [encRecords_cons]
    have := encRecord_length kv.1 kv.2
    simp only [List.length_append, List.length_cons]
    omega

/-! ### OpenSSTable scan loop specification -/

theorem openLoop_step (file : List Nat) (dataEnd f : Nat) (pre : List Nat) (k v : Str)
    (suffix : List Nat) (offset : Nat) (index : List (Str × Nat)) (mn mx : Str)
    (hashed : List Nat)
    (hf : file = pre ++ encRecord k v ++ suffix)
    (hk : k.length < 65536) (hv : v.length < 65536)
    (hlt : pre.length < dataEnd) :
    openLoop file dataEnd (f + 1) pre.length offset index mn mx hashed
      = openLoop file dataEnd f (pre ++ encRecord k v).length
          (offset + (encRecord k v).length) (astore k offset index)
          (if offset = 0 then k else mn) k (hashed ++ encRecord k v) := by
  have hku : readU16 file pre.length = some (k.length % 65536) :=
    readU16_at (A := pre) (R := k ++ be16 v.length ++ v ++ suffix)
      (by rw [hf, encRecord_eq]; simp) rfl
  have hkey : readBytes file (pre.length + 2) k.length = some k :=
    readBytes_at (A := pre ++ be16 k.length) (R := be16 v.length ++ v ++ suffix)
      (by rw [hf, encRecord_eq]; simp) (by simp [be16] <;> omega) rfl
  have hvu : readU16 file (pre.length + 2 + k.length) = some (v.length % 65536) :=
    readU16_at (A := pre ++ be16 k.length ++ k) (R := v ++ suffix)
      (by rw [hf, encRecord_eq]; simp) (by simp [be16] <;> omega)
  have hval : readBytes file (pre.length + 4 + k.length) v.length = some v :=
    readBytes_at (A := pre ++ be16 k.length ++ k ++ be16 v.length) (R := suffix)
      (by rw [hf, encRecord_eq]; simp) (by simp [be16] <;> omega) rfl
  rw [Nat.mod_eq_of_lt hk] at hku
  rw [Nat.mod_eq_of_lt hv] at hvu
  simp only [openLoop, hku, hkey, hvu, hval]
  rw [if_neg (by omega)]
  have harg : pre.length + 4 + k.length + v.length = (pre ++ encRecord k v).length := by
    simp only [List.length_append, encRecord_length]
    omega
  rw [harg]
  rfl

theorem openLoop_spec (rs : List (Str × Str)) :
    ∀ (pre tail : List Nat) (f offset : Nat) (index : List (Str × Nat))
      (mn mx : Str) (hashed : List Nat),
      (∀ kv ∈ rs, kv.1.length < 65536 ∧ kv.2.length < 65536) →
      rs.length < f →
      openLoop (pre ++ encRecords rs ++ tail) (pre.length + (encRecords rs).length)
          f pre.length offset index mn mx hashed
        = some ((accOpen rs offset index mn mx).1,
            (accOpen rs offset index mn mx).2.1,
            (accOpen rs offset index mn mx).2.2,
            offset + (encRecords rs).length,
            pre.length + (encRecords rs).length,
            hashed ++ encRecords rs) := by
  induction rs with
  | nil =>
    intro pre tail f offset index mn mx hashed _ hfuel
    cases f with
    | zero => omega
    | succ f2 =>
      show openLoop _ _ (f2 + 1) _ _ _ _ _ _ = _
      simp only [openLoop, encRecords, List.map_nil, List.flatten_nil, List.length_nil,
        Nat.add_zero, ge_iff_le, le_refl, if_true, accOpen, List.append_nil]
  | cons kv rest ih =>
    intro pre tail f offset index mn mx hashed hb hfuel
    cases f with
    | zero => omega
    | succ f2 =>
      rcases kv with ⟨k, v⟩
      have hkb := (hb (k, v) (by simp)).1
      have hvb := (hb (k, v) (by simp)).2
      have hstep := openLoop_step
        (pre ++ encRecords ((k, v) :: rest) ++ tail)
        (pre.length + (encRecords ((k, v) :: rest)).length) f2 pre k v
        (encRecords rest ++ tail) offset index mn mx hashed
        (by rw [encRecords_cons]; simp)
        hkb hvb
        (by
          rw [encRecords_cons, List.length_append, encRecord_length]
          omega)
      rw [hstep]
      have hfile : pre ++ encRecords ((k, v) :: rest) ++ tail
          = (pre ++ encRecord k v) ++ encRecords rest ++ tail := by
        rw [encRecords_cons]
        simp
      have hend : pre.length + (encRecords ((k, v) :: rest)).length
          = (pre ++ encRecord k v).length + (encRecords rest).length := by
        rw [encRecords_cons]
        simp only [List.length_append]
        omega
      rw [hfile, hend]
      have := ih (pre ++ encRecord k v) tail f2 (offset + (encRecord k v).length)
        (astore k offset index) (if offset = 0 then k else mn) k
        (hashed ++ encRecord k v)
        (fun kv2 h2 => hb kv2 (by simp [h2]))
        (by simp at hfuel; omega)
      rw [this]
      have haccs : accOpen ((k, v) :: rest) offset index mn mx
          = accOpen rest (offset + (encRecord k v).length) (astore k offset index)
              (if offset = 0 then k else mn) k := rfl
      rw [haccs]
      simp only [encRecords_cons, Option.some.injEq, Prod.mk.injEq, List.length_append,
        List.append_assoc, true_and, and_true]
      omega

/-! ### The scan accumulator in closed form -/

theorem astore_append_of_none {k : Str} {v : α} {l : List (Str × α)}
    (h : alookup k l = none) : astore k v l = l ++ [(k, v)] := by
  induction l with
  | nil => rfl
  | cons hd tl ih =>
    rcases hd with ⟨k2, v2⟩
    by_cases h2 : k2 = k
    · simp [alookup, h2] at h
    · simp only [alookup, h2, if_false] at h
      simp [astore, h2, ih h]

theorem accOpen_index (rs : List (Str × Str)) :
    ∀ (offset : Nat) (index : List (Str × Nat)) (mn mx : Str),
      (keysOf rs).Nodup →
      (∀ k2 ∈ keysOf rs, alookup k2 index = none) →
      (accOpen rs offset index mn mx).1 = index ++ buildIndex rs offset := by
  induction rs with
  | nil => intro offset index mn mx _ _; simp [accOpen, buildIndex]
  | cons kv rest ih =>
    intro offset index mn mx hnodup hnone
    rcases kv with ⟨k, v⟩
    rw [keysOf_cons] at hnodup
    rcases List.nodup_cons.mp hnodup with ⟨hknotin, hrest⟩
    have hstep : accOpen ((k, v) :: rest) offset index mn mx
        = accOpen rest (offset + (encRecord k v).length) (astore k offset index)
            (if offset = 0 then k else mn) k := rfl
    rw [hstep]
    rw [ih _ _ _ _ hrest ?side]
    case side =>
      intro k2 hk2
      have hne : k2 ≠ k := by
        intro hEq
        rw [hEq] at hk2
        exact hknotin hk2
      rw [alookup_astore_ne _ _ _ _ hne]
      exact hnone k2 (by simp [keysOf_cons, hk2])
    rw [astore_append_of_none (hnone k (by simp [keysOf_cons]))]
    simp [buildIndex]

theorem accOpen_min_pos (rs : List (Str × Str)) :
    ∀ (offset : Nat) (index : List (Str × Nat)) (mn mx : Str), offset ≠ 0 →
      (accOpen rs offset index mn mx).2.1 = mn := by
  induction rs with
  | nil => intro offset index mn mx _; rfl
  | cons kv rest ih =>
    intro offset index mn mx hpos
    rcases kv with ⟨k, v⟩
    have hstep : accOpen ((k, v) :: rest) offset index mn mx
        = accOpen rest (offset + (encRecord k v).length) (astore k offset index)
            (if offset = 0 then k else mn) k := rfl
    rw [hstep, if_neg hpos]
    exact ih _ _ _ _ (by have := encRecord_length k v; omega)

theorem accOpen_min_zero (rs : List (Str × Str)) (h : rs ≠ []) :
    ∀ (index : List (Str × Nat)) (mn mx : Str),
      (accOpen rs 0 index mn mx).2.1 = headKey rs := by
  cases rs with
  | nil => exact absurd rfl h
  | cons kv rest =>
    intro index mn mx
    rcases kv with ⟨k, v⟩
    have hstep : accOpen ((k, v) :: rest) 0 index mn mx
        = accOpen rest (0 + (encRecord k v).length) (astore k 0 index)
            (if 0 = 0 then k else mn) k := rfl
    rw [hstep, if_pos rfl]
    rw [accOpen_min_pos rest _ _ _ _ (by have := encRecord_length k v; omega)]
    rfl

theorem lastKey_cons_of_ne (kv : Str × Str) {rest : List (Str × Str)} (h : rest ≠ []) :
    lastKey (kv :: rest) = lastKey rest := by
  unfold lastKey
  cases rest with
  | nil => exact absurd rfl h
  | cons kv2 t => rw [List.getLast?_cons_cons]

theorem accOpen_max (rs : List (Str × Str)) (h : rs ≠ []) :
    ∀ (offset : Nat) (index : List (Str × Nat)) (mn mx : Str),
      (accOpen rs offset index mn mx).2.2 = lastKey rs := by
  induction rs with
  | nil => exact absurd rfl h
  | cons kv rest ih =>
    intro offset index mn mx
    rcases kv with ⟨k, v⟩
    have hstep : accOpen ((k, v) :: rest) offset index mn mx
        = accOpen rest (offset + (encRecord k v).length) (astore k offset index)
            (if offset = 0 then k else mn) k := rfl
    rw [hstep]
    cases hrest : rest with
    | nil => rfl
    | cons kv2 t =>
      rw [← hrest, ih (by rw [hrest]; simp) _ _ _ _,
        lastKey_cons_of_ne (k, v) (by rw [hrest]; simp)]

theorem accOpen_eq (rs : List (Str × Str)) (hnodup : (keysOf rs).Nodup) :
    accOpen rs 0 [] [] [] = (buildIndex rs 0, headKey rs, lastKey rs) := by
  cases hrs : rs with
  | nil => rfl
  | cons kv rest =>
    rw [← hrs]
    have h1 := accOpen_index rs 0 [] [] [] hnodup (fun k2 _ => rfl)
    have h2 := accOpen_min_zero rs (by rw [hrs]; simp) [] [] []
    have h3 := accOpen_max rs (by rw [hrs]; simp) 0 [] [] []
    have : accOpen rs 0 [] [] []
        = ((accOpen rs 0 [] [] []).1, (accOpen rs 0 [] [] []).2.1,
            (accOpen rs 0 [] [] []).2.2) := rfl
    rw [this, h1, h2, h3]
    simp

/-! ### Open after create: the round trip -/

theorem openSSTable_mkSSTable (rs : List (Str × Str))
    (hb : ∀ kv ∈ rs, kv.1.length < 65536 ∧ kv.2.length < 65536)
    (hnodup : (keysOf rs).Nodup) :
    openSSTable (mkSSTable rs).fileBytes = some (mkSSTable rs) := by
  have hfileBytes : (mkSSTable rs).fileBytes
      = encRecords rs ++ be32 (crc32 (encRecords rs)) := rfl
  have hflen : (mkSSTable rs).fileBytes.length = (encRecords rs).length + 4 := by
    rw [hfileBytes]
    simp [be32]
  have hloop := openLoop_spec rs [] (be32 (crc32 (encRecords rs)))
    ((mkSSTable rs).fileBytes.length + 1) 0 [] [] [] [] hb
    (by
      have := length_le_encRecords rs
      omega)
  simp only [List.nil_append, List.length_nil, Nat.zero_add] at hloop
  rw [hflen] at hloop
  unfold openSSTable
  rw [hfileBytes] at hflen ⊢
  rw [show (encRecords rs ++ be32 (crc32 (encRecords rs))).length - 4
      = (encRecords rs).length from by simp [be32]]
  rw [show (encRecords rs ++ be32 (crc32 (encRecords rs))).length + 1
      = (encRecords rs).length + 4 + 1 from by simp [be32]]
  rw [hloop]
  have hread : readU32 (encRecords rs ++ be32 (crc32 (encRecords rs)))
      (encRecords rs).length
      = some (crc32 (encRecords rs) % 4294967296) :=
    readU32_at (A := encRecords rs) (R := [])
      (by simp) rfl
  rw [Nat.mod_eq_of_lt (crc32_lt _)] at hread
  dsimp only
  rw [hread]
  dsimp only
  rw [if_neg (by simp)]
  rw [accOpen_eq rs hnodup]
  rfl

/-! ### SSTable.Get on a well-formed table -/

theorem buildIndex_lookup {k v : Str} (rs : List (Str × Str)) :
    ∀ o : Nat, (keysOf rs).Nodup → (k, v) ∈ rs →
      ∃ pre suf : List (Str × Str), rs = pre ++ (k, v) :: suf ∧
        alookup k (buildIndex rs o) = some (o + (encRecords pre).length) := by
  induction rs with
  | nil => intro o _ hmem; simp at hmem
  | cons kv2 rest ih =>
    intro o hnodup hmem
    rcases kv2 with ⟨k2, v2⟩
    rw [keysOf_cons] at hnodup
    rcases List.nodup_cons.mp hnodup with ⟨hknotin, hrest⟩
    by_cases h2 : k2 = k
    · have hhd : (k2, v2) = (k, v) := by
        rcases List.mem_cons.mp hmem with hEq | hmemRest
        · rw [hEq]
        · exfalso
          apply hknotin
          rw [h2]
          exact List.mem_map.mpr ⟨(k, v), hmemRest, rfl⟩
      refine ⟨[], rest, by rw [hhd]; simp, ?_⟩
      have : buildIndex ((k2, v2) :: rest) o
          = (k2, o) :: buildIndex rest (o + (encRecord k2 v2).length) := rfl
      rw [this]
      simp [alookup, h2, encRecords]
    · have hmemRest : (k, v) ∈ rest := by
        rcases List.mem_cons.mp hmem with hEq | hmemRest
        · exact absurd (congrArg Prod.fst hEq).symm h2
        · exact hmemRest
      obtain ⟨pre, suf, hsplit, hlook⟩ :=
        ih (o + (encRecord k2 v2).length) hrest hmemRest
      refine ⟨(k2, v2) :: pre, suf, by rw [hsplit]; simp, ?_⟩
      have : buildIndex ((k2, v2) :: rest) o
          = (k2, o) :: buildIndex rest (o + (encRecord k2 v2).length) := rfl
      rw [this]
      simp only [alookup, h2, if_false, hlook, encRecords_cons, List.length_append,
        Option.some.injEq]
      omega

theorem mkSSTable_get (rs : List (Str × Str))
    (hb : ∀ kv ∈ rs, kv.1.length < 65536 ∧ kv.2.length < 65536)
    (hnodup : (keysOf rs).Nodup) {k v : Str} (hmem : (k, v) ∈ rs) :
    (mkSSTable rs).get k = some v := by
  obtain ⟨pre, suf, hsplit, hlook⟩ := buildIndex_lookup rs 0 hnodup hmem
  have hkb := (hb (k, v) hmem).1
  have hvb := (hb (k, v) hmem).2
  have hfb : (mkSSTable rs).fileBytes
      = encRecords pre ++ encRecord k v
          ++ (encRecords suf ++ be32 (crc32 (encRecords rs))) := by
    show encRecords rs ++ be32 (crc32 (encRecords rs)) = _
    rw [hsplit, encRecords_append, encRecords_cons]
    simp [List.append_assoc]
  have hku : readU16 (mkSSTable rs).fileBytes (0 + (encRecords pre).length)
      = some (k.length % 65536) :=
    readU16_at (A := encRecords pre)
      (R := k ++ be16 v.length ++ v ++ (encRecords suf ++ be32 (crc32 (encRecords rs))))
      (by rw [hfb, encRecord_eq]; simp) (by simp)
  have hkey : readBytes (mkSSTable rs).fileBytes (0 + (encRecords pre).length + 2)
      k.length = some k :=
    readBytes_at (A := encRecords pre ++ be16 k.length)
      (R := be16 v.length ++ v ++ (encRecords suf ++ be32 (crc32 (encRecords rs))))
      (by rw [hfb, encRecord_eq]; simp) (by simp [be16] <;> omega) rfl
  have hvu : readU16 (mkSSTable rs).fileBytes
      (0 + (encRecords pre).length + 2 + k.length) = some (v.length % 65536) :=
    readU16_at (A := encRecords pre ++ be16 k.length ++ k)
      (R := v ++ (encRecords suf ++ be32 (crc32 (encRecords rs))))
      (by rw [hfb, encRecord_eq]; simp) (by simp [be16] <;> omega)
  have hval : readBytes (mkSSTable rs).fileBytes
      (0 + (encRecords pre).length + 4 + k.length) v.length = some v :=
    readBytes_at (A := encRecords pre ++ be16 k.length ++ k ++ be16 v.length)
      (R := encRecords suf ++ be32 (crc32 (encRecords rs)))
      (by rw [hfb, encRecord_eq]; simp) (by simp [be16] <;> omega) rfl
  rw [Nat.mod_eq_of_lt hkb] at hku
  rw [Nat.mod_eq_of_lt hvb] at hvu
  unfold SSTable.get
  have hidx : (mkSSTable rs).index = buildIndex rs 0 := rfl
  rw [hidx, hlook]
  dsimp only
  rw [hku]
  dsimp only
  rw [hkey]
  dsimp only
  rw [hvu]
  dsimp only
  rw [hval]

/-! ### CreateSSTable in closed form -/

theorem createLoop_spec (data : List (Str × Str)) (ks : List Str) :
    ∀ (offset : Nat) (index : List (Str × Nat)) (mn mx : Str) (body : List Nat),
      createLoop data ks offset index mn mx body
        = ((accOpen (ks.map (fun k => (k, (alookup k data).getD []))) offset index mn mx).1,
           (accOpen (ks.map (fun k => (k, (alookup k data).getD []))) offset index mn mx).2.1,
           (accOpen (ks.map (fun k => (k, (alookup k data).getD []))) offset index mn mx).2.2,
           offset + (encRecords (ks.map (fun k => (k, (alookup k data).getD [])))).length,
           body ++ encRecords (ks.map (fun k => (k, (alookup k data).getD [])))) := by
  induction ks with
  | nil =>
    intro offset index mn mx body
    simp [createLoop, accOpen, encRecords]
  | cons k rest ih =>
    intro offset index mn mx body
    have hcl : createLoop data (k :: rest) offset index mn mx body
        = createLoop data rest (offset + (encRecord k ((alookup k data).getD [])).length)
            (astore k offset index) (if offset = 0 then k else mn) k
            (body ++ encRecord k ((alookup k data).getD [])) := rfl
    have hacc : accOpen ((k :: rest).map (fun k2 => (k2, (alookup k2 data).getD [])))
          offset index mn mx
        = accOpen (rest.map (fun k2 => (k2, (alookup k2 data).getD [])))
            (offset + (encRecord k ((alookup k data).getD [])).length)
            (astore k offset index) (if offset = 0 then k else mn) k := rfl
    rw [hcl, ih, hacc]
    simp only [List.map_cons, encRecords_cons, List.length_append, Prod.mk.injEq,
      List.append_assoc, true_and, and_true]
    omega

theorem createSSTable_eq (data : List (Str × Str)) (hnodup : (keysOf data).Nodup) :
    createSSTable data = mkSSTable (createRecords data) := by
  have hks : keysOf (createRecords data) = sortStrs (keysOf data) := by
    have hcomp : (Prod.fst ∘ fun k : Str => (k, (alookup k data).getD [])) = id := rfl
    simp [keysOf, createRecords, List.map_map, hcomp]
  have hnodup2 : (keysOf (createRecords data)).Nodup := by
    rw [hks]
    exact ((sortStrs_perm (keysOf data)).nodup_iff).mpr hnodup
  unfold createSSTable
  rw [createLoop_spec data (sortStrs (keysOf data)) 0 [] [] [] []]
  have hrs : (sortStrs (keysOf data)).map (fun k => (k, (alookup k data).getD []))
      = createRecords data := rfl
  rw [hrs]
  dsimp only
  rw [accOpen_eq _ hnodup2]
  simp [mkSSTable]

/-! ### C8 (amended) -/

/-- C8 (amended): for every finite key-value map whose keys and values are
each shorter than 65536 bytes, opening the file written by CreateSSTable
succeeds — the CRC check passes — and yields back exactly the SSTable
value creation returned: same min key, same max key, same key-to-offset
index (hence the same key set), same size and contents.  The length bound
is necessary: the uint16 length prefixes truncate at 65536 (see the
counterexample). -/
theorem c8_roundtrip_bounded (data : List (Str × Str))
    (hnodup : (keysOf data).Nodup)
    (hb : ∀ kv ∈ data, kv.1.length < 65536 ∧ kv.2.length < 65536) :
    openSSTable (createSSTable data).fileBytes = some (createSSTable data) := by
  rw [createSSTable_eq data hnodup]
  apply openSSTable_mkSSTable
  · intro kv hkv
    simp only [createRecords, List.mem_map] at hkv
    obtain ⟨k, hk, rfl⟩ := hkv
    rw [mem_sortStrs] at hk
    obtain ⟨v, hv⟩ := alookup_isSome_of_mem_keys hk
    have := hb (k, v) (alookup_mem hv)
    simpa [hv] using this
  · have hks : keysOf (createRecords data) = sortStrs (keysOf data) := by
      have hcomp : (Prod.fst ∘ fun k : Str => (k, (alookup k data).getD [])) = id := rfl
      simp [keysOf, createRecords, List.map_map, hcomp]
    rw [hks]
    exact ((sortStrs_perm (keysOf data)).nodup_iff).mpr hnodup

/-- Witness for C8's amended theorem: the two-pair map {a ↦ x, b ↦ y}. -/
theorem c8_roundtrip_bounded_witness :
    openSSTable (createSSTable [([97], [120]), ([98], [121])]).fileBytes
      = some (createSSTable [([97], [120]), ([98], [121])]) :=
  c8_roundtrip_bounded [([97], [120]), ([98], [121])] (by decide) (by decide)

/-! ### C4 (amended) -/

theorem mkSSTable_body (rs : List (Str × Str)) :
    (mkSSTable rs).fileBytes.take ((mkSSTable rs).fileBytes.length - 4)
      = encRecords rs := by
  show (encRecords rs ++ be32 (crc32 (encRecords rs))).take
      ((encRecords rs ++ be32 (crc32 (encRecords rs))).length - 4) = encRecords rs
  rw [show (encRecords rs ++ be32 (crc32 (encRecords rs))).length - 4
      = (encRecords rs).length from by simp [be32]]
  exact List.take_left _ _

theorem encRecords_flatten (rss : List (List (Str × Str))) :
    (rss.map encRecords).flatten = encRecords rss.flatten := by
  induction rss with
  | nil => simp [encRecords]
  | cons rs rest ih => simp [encRecords_append, ih]

theorem keysOf_flatten_nodup {rss : List (List (Str × Str))}
    (hsorted : List.Pairwise (fun a b : Str × Str => ltStr a.1 b.1 = true) rss.flatten) :
    (keysOf rss.flatten).Nodup := by
  apply nodup_of_pairwise_ltStr
  exact List.pairwise_map.mpr hsorted

/-- C4 (amended): when the concatenation of the level-0 inputs' records in
level order is strictly sorted by key — so no key occurs in two inputs —
the concatenating merge is correct: it produces exactly the SSTable of the
concatenated record list (the CRC check of the re-open passes), and a
lookup of every input key returns that key's unique input value.  The
counterexample shows the precondition is not guaranteed by the code: with
a duplicate key across inputs the survivor is the record latest in
min-key order, not the newest write. -/
theorem c4_merge_preserves_sorted_inputs (rss : List (List (Str × Str)))
    (hb : ∀ kv ∈ rss.flatten, kv.1.length < 65536 ∧ kv.2.length < 65536)
    (hsorted : List.Pairwise (fun a b : Str × Str => ltStr a.1 b.1 = true) rss.flatten) :
    mergeSSTables (rss.map mkSSTable) = some (mkSSTable rss.flatten) ∧
    ∀ kv ∈ rss.flatten, (mkSSTable rss.flatten).get kv.1 = some kv.2 := by
  have hnodup := keysOf_flatten_nodup hsorted
  constructor
  · have hbody : (rss.map mkSSTable).map
        (fun s => s.fileBytes.take (s.fileBytes.length - 4)) = rss.map encRecords := by
      rw [List.map_map]
      apply List.map_congr_left
      intro rs _
      exact mkSSTable_body rs
    have hmerge : mergeSSTables (rss.map mkSSTable)
        = openSSTable (encRecords rss.flatten
            ++ be32 (crc32 (encRecords rss.flatten))) := by
      show openSSTable _ = _
      rw [hbody, encRecords_flatten]
    rw [hmerge]
    exact openSSTable_mkSSTable rss.flatten hb hnodup
  · intro kv hkv
    exact mkSSTable_get rss.flatten hb hnodup (by simpa using hkv)

/-- Witness for C4's amended theorem: two inputs with disjoint, globally
sorted key sets {a ↦ 1} and {b ↦ 2}. -/
theorem c4_merge_preserves_sorted_inputs_witness :
    mergeSSTables ([[([97], [49])], [([98], [50])]].map mkSSTable)
        = some (mkSSTable ([[([97], [49])], [([98], [50])]] : List (List (Str × Str))).flatten) ∧
    ∀ kv ∈ ([[([97], [49])], [([98], [50])]] : List (List (Str × Str))).flatten,
      (mkSSTable ([[([97], [49])], [([98], [50])]] : List (List (Str × Str))).flatten).get kv.1
        = some kv.2 :=
  c4_merge_preserves_sorted_inputs [[([97], [49])], [([98], [50])]]
    (by decide) (by decide)

/-! ### C5 (amended) -/

theorem leStr_of_ltStr {a b : Str} (h : ltStr a b = true) : leStr a b = true := by
  unfold leStr
  rw [ltStr_asymm h]
  rfl

theorem leStr_refl (a : Str) : leStr a a = true := by
  unfold leStr
  rw [ltStr_irrefl]
  rfl

theorem lastKey_mem {rs : List (Str × Str)} (h : rs ≠ []) :
    ∃ v2, (lastKey rs, v2) ∈ rs := by
  refine ⟨(rs.getLast h).2, ?_⟩
  have hl : lastKey rs = (rs.getLast h).1 := by
    unfold lastKey
    rw [List.getLast?_eq_getLast rs h]
  rw [hl]
  simpa using List.getLast_mem h

theorem pairwise_le_head {rs : List (Str × Str)}
    (hs : List.Pairwise (fun a b : Str × Str => ltStr a.1 b.1 = true) rs)
    {k v : Str} (hm : (k, v) ∈ rs) : leStr (headKey rs) k = true := by
  cases rs with
  | nil => simp at hm
  | cons hd tl =>
    rcases List.pairwise_cons.mp hs with ⟨hhd, _⟩
    have hh : headKey (hd :: tl) = hd.1 := rfl
    rcases List.mem_cons.mp hm with hEq | hmem
    · rw [hh, ← hEq]
      exact leStr_refl k
    · rw [hh]
      exact leStr_of_ltStr (hhd (k, v) hmem)

theorem pairwise_le_last {rs : List (Str × Str)}
    (hs : List.Pairwise (fun a b : Str × Str => ltStr a.1 b.1 = true) rs)
    {k v : Str} (hm : (k, v) ∈ rs) : leStr k (lastKey rs) = true := by
  induction rs with
  | nil => simp at hm
  | cons hd tl ih =>
    rcases List.pairwise_cons.mp hs with ⟨hhd, htl⟩
    by_cases hne : tl = []
    · subst hne
      rcases List.mem_cons.mp hm with hEq | hmem
      · have hl : lastKey [hd] = hd.1 := rfl
        rw [hl, ← hEq]
        exact leStr_refl k
      · simp at hmem
    · rw [lastKey_cons_of_ne hd hne]
      rcases List.mem_cons.mp hm with hEq | hmem
      · obtain ⟨v2, hv2⟩ := lastKey_mem hne
        have hlt := hhd (lastKey tl, v2) hv2
        rw [← hEq] at hlt
        exact leStr_of_ltStr hlt
      · exact ih htl hmem

theorem sortSearch_single (f : Nat → Bool) (hf : f 0 = true) : sortSearch f 2 0 1 = 0 := by
  show (if (0 : Nat) < 1 then
      if f 0 = true then sortSearch f 1 0 0 else sortSearch f 1 1 1
    else 0) = 0
  rw [if_pos (by omega : (0 : Nat) < 1), hf, if_pos rfl]
  rfl

theorem levelsGet_empty_single (cache : Cache) (k : Str) (M : SSTable) (v : Str)
    (hmax : leStr k M.maxKey = true) (hmin : leStr M.minKey k = true)
    (hget : M.get k = some v) :
    levelsGet cache k [[], [M]] = (some v, cache.put k v) := by
  have h1 : levelsGet cache k [[], [M]] = levelsGet cache k [[M]] := rfl
  rw [h1]
  unfold levelsGet
  have hss : sortSearch (fun i => leStr k (match ([M] : List SSTable).get? i with
      | some t => t.maxKey | none => [])) (([M] : List SSTable).length + 1) 0
      ([M] : List SSTable).length = 0 := by
    apply sortSearch_single
    simpa using hmax
  rw [hss]
  show (match ([M] : List SSTable).get? 0 with
    | some t =>
      if leStr t.minKey k = true then
        match t.get k with
        | some v2 => (some v2, cache.put k v2)
        | none => levelsGet cache k []
      else levelsGet cache k []
    | none => levelsGet cache k []) = (some v, cache.put k v)
  rw [show ([M] : List SSTable).get? 0 = some M from rfl]
  dsimp only
  rw [hmin, if_pos rfl, hget]

/-- C5 (amended): force_compaction does merge level 0 into level 1 — but
only once level 0 holds at least 4 SSTables (the threshold in
Compactor.Compact gates forced compaction too; below it nothing changes,
see the counterexample).  At or above the threshold, with level 1 absent,
an empty memtable and an empty block cache, and the level-0 record
concatenation strictly sorted, afterward exactly one SSTable remains in
the level system, at level 1, and every key of the inputs resolves through
Get to its value. -/
theorem c5_force_compaction_at_threshold (l : LSM) (rss : List (List (Str × Str)))
    (hlev : l.levels = [rss.map mkSSTable])
    (hcount : 4 ≤ rss.length)
    (hmt : l.memTable.size = 0)
    (hmte : l.memTable.entries = [])
    (hcache : l.cache.entries = [])
    (hb : ∀ kv ∈ rss.flatten, kv.1.length < 65536 ∧ kv.2.length < 65536)
    (hsorted : List.Pairwise (fun a b : Str × Str => ltStr a.1 b.1 = true) rss.flatten) :
    l.forceCompaction
        = Except.ok { l with levels := [[], [mkSSTable rss.flatten]] } ∧
    ∀ kv ∈ rss.flatten,
      (({ l with levels := [[], [mkSSTable rss.flatten]]} : LSM).get kv.1).1
        = some kv.2 := by
  have hmerge := (c4_merge_preserves_sorted_inputs rss hb hsorted).1
  constructor
  · unfold LSM.forceCompaction
    rw [if_neg (by omega)]
    unfold LSM.compact
    rw [hlev]
    have hhead : ([rss.map mkSSTable] : List (List SSTable)).headD []
        = rss.map mkSSTable := rfl
    rw [hhead]
    rw [if_neg (by simp only [List.length_map]; omega)]
    rw [hmerge]
    dsimp only
    rw [if_pos (by simp)]
    rfl
  · intro kv hkv
    rcases kv with ⟨k, v⟩
    have hget := (c4_merge_preserves_sorted_inputs rss hb hsorted).2 (k, v) hkv
    have hne : rss.flatten ≠ [] := by
      intro hEq
      rw [hEq] at hkv
      simp at hkv
    unfold LSM.get
    have hmt2 : MemTable.get ({ l with levels := [[], [mkSSTable rss.flatten]] } :
        LSM).memTable k = none := by
      show l.memTable.get k = none
      unfold MemTable.get
      rw [hmte]
      rfl
    rw [hmt2]
    have hc2 : Cache.get ({ l with levels := [[], [mkSSTable rss.flatten]] } :
        LSM).cache k = (none, l.cache) := by
      show l.cache.get k = (none, l.cache)
      unfold Cache.get
      rw [hcache]
      rfl
    rw [hc2]
    dsimp only
    have hlg : levelsGet l.cache k [[], [mkSSTable rss.flatten]]
        = (some v, l.cache.put k v) := by
      apply levelsGet_empty_single
      · show leStr k (lastKey rss.flatten) = true
        exact pairwise_le_last hsorted hkv
      · show leStr (headKey rss.flatten) k = true
        exact pairwise_le_head hsorted hkv
      · exact hget
    rw [hlg]

/-- Witness for C5's amended theorem: four single-pair level-0 SSTables
with ascending disjoint keys a, b, c, d. -/
theorem c5_force_compaction_at_threshold_witness :
    (LSM.mk (MemTable.new 1000) [] (Cache.new 6400)
        [[[([97], [1])], [([98], [2])], [([99], [3])], [([100], [4])]].map mkSSTable]
        1000).forceCompaction
      = Except.ok { LSM.mk (MemTable.new 1000) [] (Cache.new 6400)
          [[[([97], [1])], [([98], [2])], [([99], [3])], [([100], [4])]].map mkSSTable]
          1000 with
        levels := [[], [mkSSTable ([[([97], [1])], [([98], [2])], [([99], [3])],
          [([100], [4])]] : List (List (Str × Str))).flatten]] } ∧
    ∀ kv ∈ ([[([97], [1])], [([98], [2])], [([99], [3])], [([100], [4])]] :
        List (List (Str × Str))).flatten,
      (({ LSM.mk (MemTable.new 1000) [] (Cache.new 6400)
          [[[([97], [1])], [([98], [2])], [([99], [3])], [([100], [4])]].map mkSSTable]
          1000 with
        levels := [[], [mkSSTable ([[([97], [1])], [([98], [2])], [([99], [3])],
          [([100], [4])]] : List (List (Str × Str))).flatten]] } : LSM).get kv.1).1
        = some kv.2 :=
  c5_force_compaction_at_threshold
    (LSM.mk (MemTable.new 1000) [] (Cache.new 6400)
      [[[([97], [1])], [([98], [2])], [([99], [3])], [([100], [4])]].map mkSSTable] 1000)
    [[([97], [1])], [([98], [2])], [([99], [3])], [([100], [4])]]
    rfl (by decide) (by decide) (by decide) (by decide) (by decide) (by decide)

/-! ### C7 (amended): failed inserts never touch the header

None of the node-level helpers writes the header page or the in-memory
root offset and item count; Btree.Insert mutates them only after every
fallible step succeeded, so an insert that returns an error — the page
overflow in particular — leaves all three exactly as they were. -/

theorem hdr_aliasWrite (s : Btree) (off : Nat) (n : BNode) :
    hdrOf (aliasWrite s off n) = hdrOf s := rfl

theorem hdr_cacheNode (s : Btree) (n : BNode) : hdrOf (cacheNode s n) = hdrOf s := by
  unfold cacheNode
  split
  · rfl
  · split <;> rfl

theorem hdr_moveToFront (s : Btree) (off : Nat) : hdrOf (moveToFront s off) = hdrOf s := by
  unfold moveToFront
  split <;> rfl


theorem bresHdr_eq {α : Type} {r : BRes α} {s : Btree} {x : Nat × Nat × (Nat × Nat)}
    (hx : x ∈ bresHdr r) (h : bresHdr r = some (hdrOf s)) : x = hdrOf s := by
  rw [h] at hx
  exact (Option.some.inj (Option.mem_def.mp hx)).symm

theorem hdr_readNode (s : Btree) (off : Nat) :
    ∀ x ∈ bresHdr (readNode s off), x = hdrOf s := by
  intro x hx
  refine bresHdr_eq hx ?_
  unfold readNode
  by_cases hc : s.cacheSize > 0
  · rw [if_pos hc]
    cases hn : olookup off s.cache with
    | some n => simp [bresHdr, hdr_moveToFront]
    | none =>
      unfold readNodeFromDisk
      cases hd : olookup off s.disk with
      | some m => simp [bresHdr, hdr_cacheNode]
      | none => rfl
  · rw [if_neg hc]
    unfold readNodeFromDisk
    cases hd : olookup off s.disk with
    | some m => rfl
    | none => rfl

theorem hdr_writeNode (s : Btree) (n : BNode) (off : Nat) :
    ∀ x ∈ bresHdr (writeNode s n off), x = hdrOf s := by
  intro x hx
  refine bresHdr_eq hx ?_
  unfold writeNode writeNodeToDisk
  by_cases h : nodeSize n > s.pageSize
  · simp only [if_pos h, bresHdr]
  · simp only [if_neg h, bresHdr, hdr_cacheNode]
    rfl

theorem hdr_bindBR {α β : Type} {r : BRes α} {g : α → Btree → BRes β} {s : Btree}
    (hr : ∀ x ∈ bresHdr r, x = hdrOf s)
    (hg : ∀ a s1, r = .ok a s1 → ∀ x ∈ bresHdr (g a s1), x = hdrOf s1) :
    ∀ x ∈ bresHdr (bindBR r g), x = hdrOf s := by
  intro x hx
  cases r with
  | ok a s1 =>
    have h1 : hdrOf s1 = hdrOf s := hr (hdrOf s1) rfl
    have h2 := hg a s1 rfl x hx
    rw [h2, h1]
  | err e s1 =>
    have h1 : hdrOf s1 = hdrOf s := hr (hdrOf s1) rfl
    have hx2 : some (hdrOf s1) = some x := Option.mem_def.mp hx
    rw [← Option.some.inj hx2]
    exact h1
  | fuel => exact absurd hx (Option.not_mem_none x)

theorem bindBR_err {α β : Type} {r : BRes α} {g : α → Btree → BRes β} {e : BErr}
    {s2 : Btree} (h : bindBR r g = .err e s2) :
    r = .err e s2 ∨ ∃ a s1, r = .ok a s1 ∧ g a s1 = .err e s2 := by
  cases r with
  | ok a s1 =>
    simp only [bindBR] at h
    exact Or.inr ⟨a, s1, rfl, h⟩
  | err e1 st =>
    simp only [bindBR] at h
    cases h
    exact Or.inl rfl
  | fuel => exact absurd h (by simp [bindBR])

theorem hdr_of_err {α : Type} {r : BRes α} {s : Btree} {e : BErr} {s2 : Btree}
    (hall : ∀ x ∈ bresHdr r, x = hdrOf s) (h : r = .err e s2) : hdrOf s2 = hdrOf s :=
  hall (hdrOf s2) (by rw [h]; rfl)

theorem hdr_of_ok {α : Type} {r : BRes α} {s : Btree} {a : α} {s1 : Btree}
    (hall : ∀ x ∈ bresHdr r, x = hdrOf s) (h : r = .ok a s1) : hdrOf s1 = hdrOf s :=
  hall (hdrOf s1) (by rw [h]; rfl)

theorem hdr_splitChild (s : Btree) (p : BNode) (i : Nat) (c : BNode) :
    ∀ x ∈ bresHdr (splitChild s p i c), x = hdrOf s := by
  unfold splitChild
  dsimp only [allocateNode]
  cases hm : c.items.get? (s.degree - 1) with
  | none =>
    intro x hx
    exact bresHdr_eq hx rfl
  | some median =>
    apply hdr_bindBR
    · exact hdr_writeNode _ _ _
    · intro a s3 _
      apply hdr_bindBR
      · exact hdr_writeNode _ _ _
      · intro b s4 _
        apply hdr_bindBR
        · exact hdr_writeNode _ _ _
        · intro d s5 _ x hx
          exact bresHdr_eq hx rfl

theorem hdr_insertNonFull (fuel : Nat) :
    ∀ (s : Btree) (n : BNode) (k v : Str),
    ∀ x ∈ bresHdr (insertNonFull s n k v fuel), x = hdrOf s := by
  induction fuel with
  | zero =>
    intro s n k v x hx
    exact absurd hx (Option.not_mem_none x)
  | succ m ih =>
    intro s n k v
    unfold insertNonFull
    by_cases hl : n.isLeaf
    · rw [if_pos hl]
      apply hdr_bindBR
      · exact hdr_writeNode _ _ _
      · intro a s2 _ x hx
        exact bresHdr_eq hx rfl
    · rw [if_neg hl]
      dsimp only
      cases hco : n.children.get? (ubIndex n.items k) with
      | none =>
        intro x hx
        exact bresHdr_eq hx rfl
      | some childOff =>
        apply hdr_bindBR
        · exact hdr_readNode _ _
        · intro child s1 _
          by_cases hfull : child.items.length = 2 * s.degree - 1
          · rw [if_pos hfull]
            apply hdr_bindBR
            · exact hdr_splitChild _ _ _ _
            · intro n2 s2 _
              cases hit : n2.items.get? (ubIndex n.items k) with
              | none =>
                intro x hx
                exact bresHdr_eq hx rfl
              | some it =>
                dsimp only
                cases hcj : n2.children.get?
                    (if ltStr it.1 k then ubIndex n.items k + 1
                     else ubIndex n.items k) with
                | none =>
                  intro x hx
                  exact bresHdr_eq hx rfl
                | some childOff2 =>
                  apply hdr_bindBR
                  · exact hdr_readNode _ _
                  · intro child2 s3 _
                    apply hdr_bindBR
                    · exact ih _ _ _ _
                    · intro d s4 _ x hx
                      exact bresHdr_eq hx rfl
          · rw [if_neg hfull]
            apply hdr_bindBR
            · exact ih _ _ _ _
            · intro d s2 _ x hx
              exact bresHdr_eq hx rfl

theorem hdr_insert_err (s : Btree) (k v : Str) (fuel : Nat) (e : BErr) (s2 : Btree)
    (h : Btree.insert s k v fuel = .err e s2) : hdrOf s2 = hdrOf s := by
  unfold Btree.insert at h
  by_cases hz : s.length = 0
  · rw [if_pos hz] at h
    rcases bindBR_err h with h1 | ⟨a, s1, _, hg⟩
    · have h2 := hdr_of_err (hdr_writeNode _ _ _) h1
      exact h2.trans rfl
    · exact absurd hg (by simp)
  · rw [if_neg hz] at h
    rcases bindBR_err h with h1 | ⟨root, s1, hr, hg⟩
    · exact hdr_of_err (hdr_readNode _ _) h1
    · have hs1 : hdrOf s1 = hdrOf s := hdr_of_ok (hdr_readNode _ _) hr
      by_cases hfull : root.items.length = 2 * s.degree - 1
      · rw [if_pos hfull] at hg
        rcases bindBR_err hg with h2 | ⟨nr2, s3, hsp, hg2⟩
        · have h3 := hdr_of_err (hdr_splitChild _ _ _ _) h2
          have h4 : hdrOf s2 = hdrOf s1 := h3.trans rfl
          exact h4.trans hs1
        · have hs3 := hdr_of_ok (hdr_splitChild _ _ _ _) hsp
          have hs3a : hdrOf s3 = hdrOf s1 := hs3.trans rfl
          rcases bindBR_err hg2 with h3 | ⟨nr3, s4, hin, hg3⟩
          · have h5 := hdr_of_err (hdr_insertNonFull fuel _ _ _ _) h3
            exact (h5.trans hs3a).trans hs1
          · have hs4 : hdrOf s4 = hdrOf s3 :=
              hdr_of_ok (hdr_insertNonFull fuel _ _ _ _) hin
            rcases bindBR_err hg3 with h4 | ⟨u, s5, _, hg4⟩
            · have h6 := hdr_of_err (hdr_writeNode _ _ _) h4
              exact ((h6.trans hs4).trans hs3a).trans hs1
            · exact absurd hg4 (by simp)
      · rw [if_neg hfull] at hg
        rcases bindBR_err hg with h2 | ⟨nr2, s3, _, hg2⟩
        · have h5 := hdr_of_err (hdr_insertNonFull fuel _ _ _ _) h2
          exact h5.trans hs1
        · exact absurd hg2 (by simp)

/-- C7 (amended): a B-tree insert that fails — in particular with the
page-overflow error for a node whose serialization exceeds the page size —
changes neither the in-memory item count, nor the in-memory root offset,
nor the persisted header page: all three are exactly their pre-insert
values in the state carried by the error.  (The literal claim that the
whole tree is unchanged is refuted separately: the node cache keeps the
in-place-mutated leaf.) -/
theorem c7_failed_insert_preserves_header (s : Btree) (k v : Str) (fuel : Nat)
    (e : BErr) (s2 : Btree) (h : Btree.insert s k v fuel = .err e s2) :
    s2.length = s.length ∧ s2.rootOffset = s.rootOffset ∧ s2.header = s.header := by
  have hh := hdr_insert_err s k v fuel e s2 h
  simpa [hdrOf, Prod.ext_iff] using hh

/-- C7 witness: the page-overflow insert of btOverflowRun, applied to the
concrete one-leaf tree btAfterA, errs into a state with the original
header data. -/
theorem c7_failed_insert_preserves_header_witness :
    btOverflowErrState.length = btAfterA.length ∧
    btOverflowErrState.rootOffset = btAfterA.rootOffset ∧
    btOverflowErrState.header = btAfterA.header :=
  c7_failed_insert_preserves_header btAfterA [99]
    [120, 120, 120, 120, 120, 120, 120, 120] 20 .pageOverflow btOverflowErrState
    (by decide)

/-! ### C8 (counterexample): a 65536-byte value breaks the round trip

CreateSSTable writes the full 65536 value bytes but the uint16 length
prefix truncates to 0, so OpenSSTable parses a zero-length value, then
re-enters the value bytes as a bogus record whose third iteration reads
past the end of the file. -/

theorem openLoop_fail_step {file : List Nat} {dataEnd f : Nat} {pre : List Nat}
    {kl pos : Nat} {rest : List Nat} (offset : Nat) (index : List (Str × Nat))
    (mn mx : Str) (hashed : List Nat)
    (hf : file = pre ++ be16 kl ++ rest) (hp : pos = pre.length) (hkl : kl < 65536)
    (hlt : pos < dataEnd) (hshort : file.length < pos + 2 + kl) :
    openLoop file dataEnd (f + 1) pos offset index mn mx hashed = none := by
  have hku : readU16 file pos = some (kl % 65536) := readU16_at hf hp
  rw [Nat.mod_eq_of_lt hkl] at hku
  have hkey : readBytes file (pos + 2) kl = none := by
    unfold readBytes
    rw [if_neg]
    omega
  simp only [openLoop, hku, hkey]
  rw [if_neg (by omega)]

theorem c8_open_fails (T : List Nat) (hT : T.length = 4) :
    openSSTable (([0, 1, 107, 0, 0] ++ bigVal) ++ T) = none := by
  have hFlen : (([0, 1, 107, 0, 0] ++ bigVal) ++ T).length = 65545 := by
    simp [bigVal, hT, -List.reduceReplicate]
  have hfA : (([0, 1, 107, 0, 0] ++ bigVal) ++ T)
      = [] ++ encRecord [107] [] ++ (bigVal ++ T) := by
    rw [encRecord_eq]
    simp [be16, -List.reduceReplicate]
  have henc2 : encRecord (List.replicate 24929 97) (List.replicate 24929 97) =
      [97, 97] ++ List.replicate 24929 97 ++ [97, 97] ++ List.replicate 24929 97 := by
    rw [encRecord_eq]
    simp [be16, -List.reduceReplicate]
  have hf2 : (([0, 1, 107, 0, 0] ++ bigVal) ++ T) =
      [0, 1, 107, 0, 0] ++ encRecord (List.replicate 24929 97) (List.replicate 24929 97)
        ++ (List.replicate 15674 97 ++ T) := by
    rw [henc2]
    unfold bigVal
    rw [show (65536 : Nat) = 2 + (24929 + (2 + (24929 + 15674))) from rfl]
    rw [List.replicate_add, List.replicate_add, List.replicate_add, List.replicate_add]
    rw [show (List.replicate 2 97 : List Nat) = [97, 97] from rfl]
    simp only [List.append_assoc]
  have hfC : (([0, 1, 107, 0, 0] ++ bigVal) ++ T) =
      ([0, 1, 107, 0, 0] ++ List.replicate 49862 97) ++ be16 24929 ++
        (List.replicate 15672 97 ++ T) := by
    rw [show be16 24929 = ([97, 97] : List Nat) from by decide]
    unfold bigVal
    rw [show (65536 : Nat) = 49862 + (2 + 15672) from rfl]
    rw [List.replicate_add, List.replicate_add]
    rw [show (List.replicate 2 97 : List Nat) = [97, 97] from rfl]
    simp only [List.append_assoc]
  have hC : ∀ (f off : Nat) (idx : List (Str × Nat)) (mn mx : Str) (hs : List Nat),
      openLoop (([0, 1, 107, 0, 0] ++ bigVal) ++ T) 65541 (f + 1) 49867 off idx mn mx hs
        = none := by
    intro f off idx mn mx hs
    exact openLoop_fail_step off idx mn mx hs hfC
      (by rw [List.length_append, List.length_replicate]; rfl)
      (by norm_num) (by norm_num) (by rw [hFlen]; norm_num)
  have hB : ∀ (off : Nat) (idx : List (Str × Nat)) (mn mx : Str) (hs : List Nat),
      openLoop (([0, 1, 107, 0, 0] ++ bigVal) ++ T) 65541 65545 5 off idx mn mx hs
        = none := by
    intro off idx mn mx hs
    have h := openLoop_step (([0, 1, 107, 0, 0] ++ bigVal) ++ T) 65541 65544
        [0, 1, 107, 0, 0] (List.replicate 24929 97) (List.replicate 24929 97)
        (List.replicate 15674 97 ++ T) off idx mn mx hs hf2
        (by rw [List.length_replicate]; norm_num)
        (by rw [List.length_replicate]; norm_num)
        (by decide)
    have hlen49 : ([0, 1, 107, 0, 0] ++ encRecord (List.replicate 24929 97)
        (List.replicate 24929 97)).length = 49867 := by
      rw [List.length_append, encRecord_length, List.length_replicate]
      rfl
    rw [hlen49] at h
    rw [show ([0, 1, 107, 0, 0] : List Nat).length = 5 from rfl] at h
    rw [show (65545 : Nat) = 65544 + 1 from rfl]
    rw [h]
    exact hC 65543 _ _ _ _ _
  have hA : openLoop (([0, 1, 107, 0, 0] ++ bigVal) ++ T) 65541 65546 0 0 [] [] [] []
      = none := by
    have h := openLoop_step (([0, 1, 107, 0, 0] ++ bigVal) ++ T) 65541 65545 [] [107] []
        (bigVal ++ T) 0 [] [] [] [] hfA (by decide) (by decide) (by decide)
    rw [show (([] : List Nat) ++ encRecord [107] []).length = 5 from rfl] at h
    rw [show ([] : List Nat).length = 0 from rfl] at h
    rw [show (65546 : Nat) = 65545 + 1 from rfl]
    rw [h]
    exact hB _ _ _ _ _
  rw [openSSTable]
  rw [hFlen]
  rw [show (65545 : Nat) - 4 = 65541 from rfl, show (65545 : Nat) + 1 = 65546 from rfl]
  rw [hA]

/-- C8: refuted as stated — the single-pair map k ↦ (65536 bytes of 0x61)
is created into an SSTable whose index holds k at offset 0 as usual, but
reopening that very file fails (none = ErrSSTableCorrupted/short read):
binary.Write(uint16(len(value))) truncated the value length to 0, so the
scan takes the value bytes for further records and finally reads past the
end of the file.  The round-trip claim fails for values (or keys) of
65536 bytes or more; the bounded version is proved separately. -/
theorem c8_large_value_breaks_roundtrip :
    (createSSTable c8data).index = [([107], 0)] ∧
    openSSTable (createSSTable c8data).fileBytes = none := by
  constructor
  · rfl
  · have h0 : (createSSTable c8data).fileBytes =
        (([] : List Nat) ++ encRecord [107] bigVal) ++
          be32 (crc32 (([] : List Nat) ++ encRecord [107] bigVal)) := rfl
    have hentry : ([] : List Nat) ++ encRecord [107] bigVal
        = [0, 1, 107, 0, 0] ++ bigVal := by
      rw [List.nil_append]
      rw [encRecord_eq]
      simp [be16, bigVal, -List.reduceReplicate]
    have hfb : (createSSTable c8data).fileBytes =
        ([0, 1, 107, 0, 0] ++ bigVal) ++ be32 (crc32 ([0, 1, 107, 0, 0] ++ bigVal)) := by
      rw [h0, hentry]
    rw [hfb]
    exact c8_open_fails _ (by simp [be32])

end GoLite
